import Mathlib

/-!
Verification of the Abalone rules engine (`src/core/board.py`).

The board module's helper types (axial hex coordinates, the hex grid, the
two-valued color, `Selection` and `Move`) live in modules that are not part
of the sources at hand; those definitions are modelled from the
specification's data model and are marked as such.  Everything in `Board`
itself is translated directly from `src/core/board.py`.
-/

/-- Modelled from the spec: `core/hex.py` is missing.  "Hex — two integers
(q, r) in axial coordinates. Immutable. Equality and hashing by (q, r).
Supports `add(direction_vector) -> Hex`."  The code accesses the fields as
`.x` and `.y` (`Hex(q, r)` with `x = q`, `y = r`). -/
structure Hex where
  x : Int
  y : Int
deriving DecidableEq, Repr

/-- `Hex.add`: componentwise translation by a direction delta. -/
def Hex.add (c : Hex) (d : Int × Int) : Hex :=
  ⟨c.x + d.1, c.y + d.2⟩

/-- `c` advanced `i` steps in direction delta `d` (for stating walk facts). -/
def Hex.step (c : Hex) (d : Int × Int) (i : Nat) : Hex :=
  ⟨c.x + i * d.1, c.y + i * d.2⟩

/-- `c` advanced an integer number of steps along `d` (for reasoning about
selections as segments of a line). -/
def Hex.zstep (c : Hex) (d : Int × Int) (k : Int) : Hex :=
  ⟨c.x + k * d.1, c.y + k * d.2⟩

/-- Modelled from the spec: `core/color.py` is missing.  "Color — enumerant
{BLACK, WHITE}. `next(color)` returns the other value."  The underlying
values are the layout codes (0 = empty, else a Color's raw value). -/
inductive Color where
  | black
  | white
deriving DecidableEq, Repr

/-- The enum's underlying integer value (layout code). -/
def Color.value : Color → Nat
  | .black => 1
  | .white => 2

/-- `Color.next`: the other player. -/
def Color.next : Color → Color
  | .black => .white
  | .white => .black

/-- `Color(val)` in Python: raises `ValueError` (mapped to `none` by
`create_from_data`) unless `val` is a valid color code. -/
def colorOfNat (v : Nat) : Option Color :=
  if v = 1 then some Color.black else if v = 2 then some Color.white else none

/-- Modelled from the spec: the hex direction enum from `lib/hex` is
missing.  "Direction — one of six unit vectors in axial space, each an
enumerant carrying its (dq, dr) delta." -/
inductive HexDirection where
  | E
  | W
  | NE
  | NW
  | SE
  | SW
deriving DecidableEq, Repr

/-- The (dq, dr) delta carried by each direction. -/
def HexDirection.value : HexDirection → Int × Int
  | .E => (1, 0)
  | .W => (-1, 0)
  | .NE => (1, -1)
  | .NW => (0, -1)
  | .SE => (0, 1)
  | .SW => (-1, 1)

/-- The opposite direction (used to state the round-trip property). -/
def HexDirection.opposite : HexDirection → HexDirection
  | .E => .W
  | .W => .E
  | .NE => .SW
  | .SW => .NE
  | .NW => .SE
  | .SE => .NW

/-- Modelled from the spec: `core/constants.py` is missing.  Abalone's
standard board, "a size-N hexagonal board: 2N−1 rows"; the GUI constant
`BOARD_MAX_COLS` (= 9 = 2·5−1) fixes N = 5. -/
def BOARD_SIZE : Nat := 5

/-- Modelled from the spec: `lib/hex/hex_grid.py` is missing.
`offset(row)` gives "the column-to-axial-q translation for that row";
per the comment in `create_from_data`, "board storage starts at x with
size - 1", rows shortening away from the middle row. -/
def offset (r : Int) : Int :=
  max (BOARD_SIZE - 1 - r) 0

/-- Number of columns stored in row `r` ("rows get shorter away from the
center, classic hex-board indexing"): the middle row has 2N−1 cells, each
row away from it one fewer. -/
def rowLen (r : Int) : Int :=
  2 * BOARD_SIZE - 1 - (if r ≤ BOARD_SIZE - 1 then BOARD_SIZE - 1 - r else r - (BOARD_SIZE - 1))

/-- `rowLen` on natural row indices, for building iteration ranges. -/
def rowLenNat (r : Nat) : Nat :=
  2 * BOARD_SIZE - 1 - (if r ≤ BOARD_SIZE - 1 then BOARD_SIZE - 1 - r else r - (BOARD_SIZE - 1))

/-- Modelled from the spec: the grid's containment test.  A cell is in
bounds when its row exists and its q coordinate falls inside that row's
stored column range ("containment test and offset function must agree"). -/
def cellInBounds (c : Hex) : Bool :=
  decide (0 ≤ c.y) && decide (c.y ≤ 2 * BOARD_SIZE - 2) &&
    decide (offset c.y ≤ c.x) && decide (c.x < offset c.y + rowLen c.y)

/-- Every in-bounds cell, in storage order (rows ascending, columns
ascending) — the iteration order of the grid's backing rows. -/
def allCells : List Hex :=
  (List.range (2 * BOARD_SIZE - 1)).flatMap fun (r : Nat) =>
    (List.range (rowLenNat r)).map fun (i : Nat) => ⟨offset r + i, r⟩

/-- Modelled from the spec: `core/selection.py` is missing.  "Selection —
`start: Hex`, `end: Hex` (end may be absent, meaning a single-cell
selection)."  The `end` field is called `stop` here because `end` is a
Lean keyword. -/
structure Selection where
  start : Hex
  stop : Option Hex
deriving DecidableEq, Repr

/-- Modelled from the spec: `to_array()` "walks from `start` to `end` (or
returns `[start]` if no `end`) stepping by the unit vector implied by the
two endpoints"; the implied unit vector is the componentwise sign of the
endpoint difference. -/
def Selection.to_array (s : Selection) : List Hex :=
  match s.stop with
  | none => [s.start]
  | some e =>
    let dx := e.x - s.start.x
    let dy := e.y - s.start.y
    let n := max dx.natAbs dy.natAbs
    (List.range (n + 1)).map fun (i : Nat) => ⟨s.start.x + i * dx.sign, s.start.y + i * dy.sign⟩

/-- Modelled from the spec: `size()`, "derived: `size()` (1–3)" — the
number of member cells. -/
def Selection.get_size (s : Selection) : Nat :=
  s.to_array.length

/-- The unit vector implied by the selection's endpoints ((0, 0) when the
selection has a single cell). -/
def Selection.unit (s : Selection) : Int × Int :=
  match s.stop with
  | none => (0, 0)
  | some e => ((e.x - s.start.x).sign, (e.y - s.start.y).sign)

/-- The spec's representation invariant for selections: "a straight
contiguous run … collinear along one of the six axes" (required by the
producing algorithm, not enforced by the type). -/
def Selection.Collinear (s : Selection) : Prop :=
  match s.stop with
  | none => True
  | some e => e.x - s.start.x = 0 ∨ e.y - s.start.y = 0 ∨ e.x - s.start.x = -(e.y - s.start.y)

instance (s : Selection) : Decidable s.Collinear := by
  unfold Selection.Collinear
  cases s.stop <;> infer_instance

/-- Modelled from the spec: `core/move.py` is missing.  "Move —
`selection: Selection`, `direction: Direction`." -/
structure Move where
  selection : Selection
  direction : HexDirection
deriving DecidableEq, Repr

/-- Modelled from the spec: "*single*: selection size 1." -/
def Move.is_single (m : Move) : Bool :=
  m.selection.get_size == 1

/-- Modelled from the spec: "*inline*: direction is parallel to the
selection's own axis (moving along the line the marbles already form)." -/
def Move.is_inline (m : Move) : Bool :=
  match m.selection.stop with
  | none => false
  | some _ =>
    m.direction.value == m.selection.unit ||
      m.direction.value == (-m.selection.unit.1, -m.selection.unit.2)

/-- Modelled from the spec: "`get_front()` returns the selection endpoint
closest to the direction of travel (the 'head' marble that would first
contact an obstacle)." -/
def Move.get_front (m : Move) : Hex :=
  match m.selection.stop with
  | none => m.selection.start
  | some e => if m.direction.value = m.selection.unit then e else m.selection.start

/-- Modelled from the spec: "`get_destinations()` returns each member cell
advanced one step by the direction vector." -/
def Move.get_destinations (m : Move) : List Hex :=
  m.selection.to_array.map fun c => c.add m.direction.value

/-- The board: cell storage (`HexGrid`), the immutable starting `layout`
captured by `create_from_data`, and the lazily rebuilt enumeration cache
`_items` (`None` = stale/uncomputed). -/
structure Board where
  cells : Hex → Option Color
  layout : List (List Nat)
  items : Option (List (Hex × Option Color))

/-- Modelled from the spec: the grid read, "`get(cell) -> occupant`
(fails/returns absent for out-of-bounds)". -/
def Board.get (b : Board) (c : Hex) : Option Color :=
  if cellInBounds c then b.cells c else none

/-- `Board.__setitem__` (`board.py:238-248`): store the value through the
grid (cells outside the hexagon are not addressable, so an out-of-bounds
write does nothing), and "mark enumeration struct as in need of
recalculation" whenever `cell in self`. -/
def Board.setItem (b : Board) (c : Hex) (v : Option Color) : Board :=
  if cellInBounds c then
    { b with cells := fun x => if x = c then v else b.cells x, items := none }
  else
    b

/-- `Selection.get_player` — "returns `board.get(start)`". -/
def Selection.get_player (s : Selection) (b : Board) : Option Color :=
  b.get s.start

/-- Modelled from the spec: "`is_sumito(board)` — true only for inline
moves where the front's next cell is occupied by the opponent." -/
def Move.is_sumito (m : Move) (b : Board) : Bool :=
  m.is_inline &&
    match m.selection.get_player b, b.get ((m.get_front).add m.direction.value) with
    | some p, some c => c == Color.next p
    | _, _ => false

/-- The freshly computed enumeration contents: every stored position and
its value, in storage order (`enumerate`, `board.py:60-72`). -/
def computeItems (b : Board) : List (Hex × Option Color) :=
  allCells.map fun c => (c, b.get c)

/-- `Board.enumerate` (`board.py:60-72`): rebuild `_items` when it is
falsy (`None` or the empty list), else return the cached list.  Returns
the possibly updated board together with the list. -/
def Board.enumerate (b : Board) : Board × List (Hex × Option Color) :=
  match b.items with
  | some (x :: xs) => (b, x :: xs)
  | _ => ({ b with items := some (computeItems b) }, computeItems b)

/-- `Board.cell_in_bounds` (`board.py:74-78`). -/
def Board.cell_in_bounds (_ : Board) (c : Hex) : Bool :=
  cellInBounds c

/-- `Board.cell_owned_by` (`board.py:80-84`). -/
def Board.cell_owned_by (b : Board) (c : Hex) (player : Color) : Bool :=
  b.cell_in_bounds c &&
    match b.get c with
    | some col => col == player
    | none => false

/-- `MAX_SUMITO = 3` (`board.py:22`). -/
def MAX_SUMITO : Nat := 3

/-- `Board._is_valid_single_move` (`board.py:120-133`): the destination of
the selection's start must be in bounds and unoccupied. -/
def Board.is_valid_single_move (b : Board) (m : Move) : Bool :=
  let destination := m.selection.start.add m.direction.value
  if !b.cell_in_bounds destination then false
  else if (b.get destination).isSome then false
  else true

/-- The body of the `for i in range(1, MAX_SUMITO + 1)` walk of
`_is_valid_inline_move` (`board.py:142-156`): `is` lists the remaining
loop indices, `destination` the last visited cell, `oob` the
`out_of_bounds_valid` flag; falling off the loop yields `True`. -/
def validInlineStep (b : Board) (current_player : Color) (d : Int × Int)
    (size : Nat) : List Nat → Hex → Bool → Bool
  | [], _, _ => true
  | i :: is, destination, oob =>
    let dest' := destination.add d
    if !cellInBounds dest' then oob
    else
      match b.get dest' with
      | none => true
      | some c =>
        if c = current_player then false
        else if size ≤ i then false
        else validInlineStep b current_player d size is dest' true

/-- `Board._is_valid_inline_move` (`board.py:135-156`). -/
def Board.is_valid_inline_move (b : Board) (m : Move) (current_player : Color) : Bool :=
  validInlineStep b current_player m.direction.value m.selection.get_size
    [1, 2, 3] m.get_front false

/-- `Board._is_valid_sidestep_move` (`board.py:158-172`): every member
cell's destination must be in bounds and unoccupied. -/
def Board.is_valid_sidestep_move (b : Board) (m : Move) : Bool :=
  m.selection.to_array.all fun cell =>
    let destination := cell.add m.direction.value
    b.cell_in_bounds destination && !(b.get destination).isSome

/-- `Board.is_valid_move` (`board.py:86-96`): dispatch on the move's
shape. -/
def Board.is_valid_move (b : Board) (m : Move) (current_player : Color) : Bool :=
  if m.is_single then b.is_valid_single_move m
  else if m.is_inline then b.is_valid_inline_move m current_player
  else b.is_valid_sidestep_move m

/-- The first loop of `get_score` (`board.py:101-105`): how many entries
of the stored layout carry the given color's code. -/
def layoutCount (data : List (List Nat)) (c : Color) : Nat :=
  (data.map fun line => line.countP fun v => v == c.value).sum

/-- `Board.get_score` (`board.py:98-112`): the opponent's marbles in the
starting layout minus the opponent's marbles currently enumerated. -/
def Board.get_score (b : Board) (player : Color) : Int :=
  let enemy := Color.next player
  (layoutCount b.layout enemy : Int) -
    ((b.enumerate).2.countP fun it => it.2 == some enemy : Int)

/-- `Board._apply_base_move` (`board.py:174-185`): capture the mover's
color, clear every source cell, then set every destination cell. -/
def Board.apply_base_move (b : Board) (m : Move) : Board :=
  let player := m.selection.get_player b
  let b1 := m.selection.to_array.foldl (fun bd cell => bd.setItem cell none) b
  m.get_destinations.foldl (fun bd cell => bd.setItem cell player) b1

/-- The `while next_cell in self and self[next_cell] == color` loop of
`select_marbles_in_line` (`board.py:200-204`), with explicit fuel; the
fuel is never exhausted from an in-bounds starting cell (each step moves a
monotone coordinate, and the board holds at most 2·`BOARD_SIZE`−1 cells on
a line), which `selectLoop_spec` below makes precise. -/
def selectLoop (b : Board) (color : Color) (d : Int × Int) :
    Nat → Hex → Hex → Option Hex
  | fuel, dest_cell, next_cell =>
    if cellInBounds next_cell && (b.get next_cell == some color) then
      match fuel with
      | 0 => none
      | fuel' + 1 => selectLoop b color d fuel' next_cell (next_cell.add d)
    else
      some dest_cell

/-- `Board.select_marbles_in_line` (`board.py:187-206`): `None` when the
start is unoccupied, else the selection from `start` to the last cell of
the run of same-colored cells (`Hex(dest_cell.x, dest_cell.y)`). -/
def Board.select_marbles_in_line (b : Board) (start : Hex) (direction : HexDirection) :
    Option Selection :=
  match b.get start with
  | none => none
  | some color =>
    match selectLoop b color direction.value 18 start start with
    | some dest_cell => some ⟨start, some ⟨dest_cell.x, dest_cell.y⟩⟩
    | none => none

/-- `Board._apply_sumito_move` (`board.py:208-232`): select the pushed
run just beyond the front, clear its in-bounds source cells (out-of-bounds
cells are only reported, `board.py:224`), write its in-bounds
destinations, then apply the mover's base move.  The `none` branch is
unreachable from `apply_move` (a sumito move has an opponent on the cell
beyond the front, so the line selection succeeds). -/
def Board.apply_sumito_move (b : Board) (m : Move) : Board :=
  match b.select_marbles_in_line ((m.get_front).add m.direction.value) m.direction with
  | none => b
  | some sel =>
    let sumito_move : Move := ⟨sel, m.direction⟩
    let player := sumito_move.selection.get_player b
    let b1 := sumito_move.selection.to_array.foldl
      (fun bd cell => if bd.cell_in_bounds cell then bd.setItem cell none else bd) b
    let b2 := sumito_move.get_destinations.foldl
      (fun bd cell => if bd.cell_in_bounds cell then bd.setItem cell player else bd) b1
    b2.apply_base_move m

/-- `Board.apply_move` (`board.py:114-118`). -/
def Board.apply_move (b : Board) (m : Move) : Board :=
  if m.is_sumito b then b.apply_sumito_move m else b.apply_base_move m

/-- The inner `for q, val in enumerate(line)` of `create_from_data`
(`board.py:35-41`), with the running column index made explicit. -/
def loadRow (b : Board) (r : Nat) (q : Nat) : List Nat → Board
  | [] => b
  | v :: rest => loadRow (b.setItem ⟨(q : Int) + offset r, r⟩ (colorOfNat v)) r (q + 1) rest

/-- The outer `for r, line in enumerate(data)` of `create_from_data`. -/
def loadRows (b : Board) (r : Nat) : List (List Nat) → Board
  | [] => b
  | line :: rest => loadRows (loadRow b r 0 line) (r + 1) rest

/-- `Board.create_from_data` (`board.py:24-42`): a fresh board holding the
data (shifted by each row's offset), with the original data cached as the
starting layout. -/
def Board.create_from_data (data : List (List Nat)) : Board :=
  loadRows { cells := fun _ => none, layout := data, items := none } 0 data

/-- The spec's cache invariant: "the occupant cache is always either
`None` (stale/uncomputed) or an exact reflection of current cell
contents". -/
def cacheWF (b : Board) : Prop :=
  b.items = none ∨ b.items = some (computeItems b)

/-- The number of cells currently occupied by the given color (the "live
board" count). -/
def countColor (b : Board) (c : Color) : Nat :=
  allCells.countP fun cell => b.get cell == some c

/-- A 9-row layout of the right shape with two black marbles at (6,0),
(7,0) and one white marble at (8,0) (the row-0 edge). -/
def layoutPush : List (List Nat) :=
  [[0, 0, 1, 1, 2],
   [0, 0, 0, 0, 0, 0],
   [0, 0, 0, 0, 0, 0, 0],
   [0, 0, 0, 0, 0, 0, 0, 0],
   [0, 0, 0, 0, 0, 0, 0, 0, 0],
   [0, 0, 0, 0, 0, 0, 0, 0],
   [0, 0, 0, 0, 0, 0, 0],
   [0, 0, 0, 0, 0, 0],
   [0, 0, 0, 0, 0]]

/-- A 9-row layout with black at (5,0), (6,0) and white at (7,0), (8,0). -/
def layoutTwoOnTwo : List (List Nat) :=
  [[0, 1, 1, 2, 2],
   [0, 0, 0, 0, 0, 0],
   [0, 0, 0, 0, 0, 0, 0],
   [0, 0, 0, 0, 0, 0, 0, 0],
   [0, 0, 0, 0, 0, 0, 0, 0, 0],
   [0, 0, 0, 0, 0, 0, 0, 0],
   [0, 0, 0, 0, 0, 0, 0],
   [0, 0, 0, 0, 0, 0],
   [0, 0, 0, 0, 0]]

/-- The board loaded from `layoutPush`. -/
def boardPush : Board := Board.create_from_data layoutPush

/-- The board loaded from `layoutTwoOnTwo`. -/
def boardTwoOnTwo : Board := Board.create_from_data layoutTwoOnTwo

/-- Black's two-marble eastward selection on `boardPush`. -/
def movePushE : Move := ⟨⟨⟨6, 0⟩, some ⟨7, 0⟩⟩, .E⟩

/-- Black's two-marble eastward selection on `boardTwoOnTwo`. -/
def moveTwoE : Move := ⟨⟨⟨5, 0⟩, some ⟨6, 0⟩⟩, .E⟩

/-- Black's two-marble south-east sidestep on `boardPush`. -/
def moveSideSE : Move := ⟨⟨⟨6, 0⟩, some ⟨7, 0⟩⟩, .SE⟩

/-- A linear functional on cells that strictly increases along the given
direction (used to bound the line-selection loop: it is at most 8 on any
in-bounds cell, so at most 17 in-bounds steps fit on one line). -/
def dirMono (d : HexDirection) (c : Hex) : Int :=
  match d with
  | .E => c.x
  | .W => -c.x
  | .NE => c.x
  | .SW => -c.x
  | .NW => -c.y
  | .SE => c.y

/-- Remaining fuel bound for the line-selection loop from a given cell. -/
def dirFuel (d : HexDirection) (c : Hex) : Nat :=
  (9 - dirMono d c).toNat

/-! ## Basic lemmas about the data model -/

theorem Color.next_ne (p : Color) : Color.next p ≠ p := by
  cases p <;> simp [Color.next]

theorem Board.get_oob {c : Hex} (b : Board) (h : cellInBounds c = false) :
    b.get c = none := by
  simp [Board.get, h]

theorem Board.setItem_oob {c : Hex} (b : Board) (v : Option Color)
    (h : cellInBounds c = false) : b.setItem c v = b := by
  simp [Board.setItem, h]

theorem Board.get_setItem (b : Board) (x : Hex) (v : Option Color) (c : Hex) :
    (b.setItem x v).get c = if c = x ∧ cellInBounds x then v else b.get c := by
  by_cases hx : cellInBounds x
  · by_cases hc : c = x
    · subst hc
      simp [Board.setItem, Board.get, hx]
    · simp [Board.setItem, Board.get, hx, hc]
  · rw [Board.setItem_oob b v (by simpa using hx)]
    simp [hx]

theorem Board.layout_setItem (b : Board) (x : Hex) (v : Option Color) :
    (b.setItem x v).layout = b.layout := by
  unfold Board.setItem
  split <;> rfl

theorem Board.cells_eq_get (b b' : Board) (h : ∀ c, b.get c = b'.get c) :
    computeItems b = computeItems b' := by
  unfold computeItems
  exact List.map_congr_left fun c _ => by rw [h c]

/-! ## Bounds and cell enumeration -/

theorem offset_eq (r : Int) : offset r = if r ≤ 4 then 4 - r else 0 := by
  unfold offset BOARD_SIZE
  push_cast
  rw [max_def]
  split_ifs <;> omega

theorem rowLen_eq (r : Int) : rowLen r = if r ≤ 4 then 5 + r else 13 - r := by
  unfold rowLen BOARD_SIZE
  push_cast
  split_ifs <;> omega

theorem rowLenNat_eq (r : Nat) : rowLenNat r = if r ≤ 4 then 5 + r else 13 - r := by
  unfold rowLenNat BOARD_SIZE
  split_ifs <;> omega

theorem cellInBounds_iff (c : Hex) :
    cellInBounds c = true ↔
      0 ≤ c.y ∧ c.y ≤ 8 ∧
        ((c.y ≤ 4 ∧ 4 - c.y ≤ c.x ∧ c.x ≤ 8) ∨ (4 < c.y ∧ 0 ≤ c.x ∧ c.x ≤ 12 - c.y)) := by
  unfold cellInBounds
  rw [offset_eq, rowLen_eq]
  simp only [Bool.and_eq_true, decide_eq_true_eq, BOARD_SIZE]
  push_cast
  split_ifs <;> omega

theorem coord_bounds {c : Hex} (h : cellInBounds c = true) :
    0 ≤ c.x ∧ c.x ≤ 8 ∧ 0 ≤ c.y ∧ c.y ≤ 8 := by
  rw [cellInBounds_iff] at h
  omega

theorem mem_allCells {c : Hex} : c ∈ allCells ↔ cellInBounds c = true := by
  unfold allCells
  rw [List.mem_flatMap, cellInBounds_iff]
  constructor
  · rintro ⟨r, hr, hc⟩
    rw [List.mem_map] at hc
    obtain ⟨i, hi, rfl⟩ := hc
    rw [List.mem_range] at hr
    rw [List.mem_range, rowLenNat_eq] at hi
    rw [offset_eq]
    simp only [BOARD_SIZE] at hr
    split_ifs at hi ⊢ <;> simp only <;> omega
  · intro h
    have ho := offset_eq c.y
    refine ⟨c.y.toNat, ?_, ?_⟩
    · rw [List.mem_range]
      simp only [BOARD_SIZE]
      omega
    · rw [List.mem_map]
      refine ⟨(c.x - offset c.y).toNat, ?_, ?_⟩
      · rw [List.mem_range, rowLenNat_eq]
        split_ifs at * <;> omega
      · have hy : ((c.y.toNat : Nat) : Int) = c.y := by omega
        have hox : ((c.x - offset c.y).toNat : Int) = c.x - offset c.y := by
          split_ifs at ho <;> omega
        cases c with
        | mk x y =>
          simp only at *
          rw [Hex.mk.injEq, hy]
          constructor
          · omega
          · rfl

theorem allCells_nodup : allCells.Nodup := by
  decide

theorem allCells_length : allCells.length = 61 := by
  decide

/-! ## Folded writes -/

theorem Board.get_foldl_not_mem (l : List Hex) (v : Option Color) (b : Board) (c : Hex)
    (h : c ∉ l) :
    (l.foldl (fun bd x => bd.setItem x v) b).get c = b.get c := by
  induction l generalizing b with
  | nil => rfl
  | cons x xs ih =>
    rw [List.foldl_cons, ih _ fun hm => h (List.mem_cons_of_mem _ hm), Board.get_setItem,
      if_neg]
    rintro ⟨rfl, -⟩
    exact h (List.mem_cons_self _ _)

theorem Board.get_foldl_mem (l : List Hex) (v : Option Color) (b : Board) (c : Hex)
    (h : c ∈ l) (hin : cellInBounds c = true) :
    (l.foldl (fun bd x => bd.setItem x v) b).get c = v := by
  induction l generalizing b with
  | nil => cases h
  | cons x xs ih =>
    rw [List.foldl_cons]
    by_cases hx : c ∈ xs
    · exact ih _ hx
    · have hcx : c = x := by
        rcases List.mem_cons.mp h with h' | h'
        · exact h'
        · exact absurd h' hx
      subst hcx
      rw [Board.get_foldl_not_mem _ _ _ _ hx, Board.get_setItem, if_pos ⟨rfl, hin⟩]

theorem Board.layout_foldl (l : List Hex) (v : Option Color) (b : Board) :
    (l.foldl (fun bd x => bd.setItem x v) b).layout = b.layout := by
  induction l generalizing b with
  | nil => rfl
  | cons x xs ih => rw [List.foldl_cons, ih, Board.layout_setItem]

theorem Board.items_setItem_cases (b : Board) (c : Hex) (v : Option Color) :
    (b.setItem c v).items = none ∨ b.setItem c v = b := by
  unfold Board.setItem
  split
  · exact Or.inl rfl
  · exact Or.inr rfl

theorem cacheWF_setItem (b : Board) (c : Hex) (v : Option Color) (h : cacheWF b) :
    cacheWF (b.setItem c v) := by
  rcases Board.items_setItem_cases b c v with h' | h'
  · exact Or.inl h'
  · rw [h']
    exact h

theorem cacheWF_foldl (l : List Hex) (v : Option Color) (b : Board) (h : cacheWF b) :
    cacheWF (l.foldl (fun bd x => bd.setItem x v) b) := by
  induction l generalizing b with
  | nil => exact h
  | cons x xs ih => exact ih _ (cacheWF_setItem _ _ _ h)

/-! ## The enumeration cache -/

theorem computeItems_ne_nil (b : Board) : computeItems b ≠ [] := by
  intro h
  have hl := congrArg List.length h
  rw [computeItems, List.length_map, allCells_length] at hl
  exact absurd hl (by decide)

theorem computeItems_items_irrel (b : Board) (x : Option (List (Hex × Option Color))) :
    computeItems { b with items := x } = computeItems b := rfl

theorem Board.enumerate_of_none {b : Board} (hb : b.items = none) :
    b.enumerate = ({ b with items := some (computeItems b) }, computeItems b) := by
  unfold Board.enumerate
  rw [hb]

theorem Board.enumerate_of_nil {b : Board} (hb : b.items = some []) :
    b.enumerate = ({ b with items := some (computeItems b) }, computeItems b) := by
  unfold Board.enumerate
  rw [hb]

theorem Board.enumerate_of_cons {b : Board} {x : Hex × Option Color}
    {xs : List (Hex × Option Color)} (hb : b.items = some (x :: xs)) :
    b.enumerate = (b, x :: xs) := by
  unfold Board.enumerate
  rw [hb]

theorem computeItems_exists_cons (b : Board) :
    ∃ x xs, computeItems b = x :: xs :=
  List.exists_cons_of_ne_nil (computeItems_ne_nil b)

theorem Board.enumerate_snd (b : Board) (h : cacheWF b) :
    (b.enumerate).2 = computeItems b := by
  rcases h with h | h
  · rw [Board.enumerate_of_none h]
  · obtain ⟨x, xs, hc⟩ := computeItems_exists_cons b
    rw [hc] at h
    rw [Board.enumerate_of_cons h, hc]

theorem Board.enumerate_fst (b : Board) (h : cacheWF b) :
    (b.enumerate).1.cells = b.cells ∧ (b.enumerate).1.layout = b.layout ∧
      (b.enumerate).1.items = some (computeItems b) := by
  rcases h with h | h
  · rw [Board.enumerate_of_none h]
    exact ⟨rfl, rfl, rfl⟩
  · obtain ⟨x, xs, hc⟩ := computeItems_exists_cons b
    rw [hc] at h
    rw [Board.enumerate_of_cons h]
    exact ⟨rfl, rfl, by rw [h, hc]⟩

theorem cacheWF_enumerate (b : Board) (h : cacheWF b) : cacheWF (b.enumerate).1 := by
  obtain ⟨h1, -, h3⟩ := Board.enumerate_fst b h
  right
  rw [h3]
  congr 1
  unfold computeItems Board.get
  exact List.map_congr_left fun c _ => by rw [h1]

theorem Board.enumerate_stable (b : Board) :
    ((b.enumerate).1.enumerate).2 = (b.enumerate).2 := by
  obtain ⟨x, xs, hc⟩ := computeItems_exists_cons b
  rcases hb : b.items with _ | l
  · rw [Board.enumerate_of_none hb]
    have hi : ({ b with items := some (computeItems b) } : Board).items =
        some (x :: xs) := by
      rw [hc]
    rw [Board.enumerate_of_cons hi, hc]
  · rcases l with _ | ⟨y, ys⟩
    · rw [Board.enumerate_of_nil hb]
      have hi : ({ b with items := some (computeItems b) } : Board).items =
          some (x :: xs) := by
        rw [hc]
      rw [Board.enumerate_of_cons hi, hc]
    · rw [Board.enumerate_of_cons hb, Board.enumerate_of_cons hb]

/-! ## Selection structure -/

theorem Selection.to_array_none {s : Selection} (h : s.stop = none) :
    s.to_array = [s.start] := by
  unfold Selection.to_array
  rw [h]

theorem Selection.to_array_some {s : Selection} {e : Hex} (h : s.stop = some e) :
    s.to_array =
      (List.range (max (e.x - s.start.x).natAbs (e.y - s.start.y).natAbs + 1)).map
        fun (i : Nat) => ⟨s.start.x + i * s.unit.1, s.start.y + i * s.unit.2⟩ := by
  unfold Selection.to_array Selection.unit
  rw [h]

theorem Selection.get_size_some {s : Selection} {e : Hex} (h : s.stop = some e) :
    s.get_size = max (e.x - s.start.x).natAbs (e.y - s.start.y).natAbs + 1 := by
  unfold Selection.get_size
  rw [Selection.to_array_some h, List.length_map, List.length_range]

theorem Selection.get_size_pos (s : Selection) : 1 ≤ s.get_size := by
  rcases hs : s.stop with _ | e
  · unfold Selection.get_size
    rw [Selection.to_array_none hs]
    simp
  · rw [Selection.get_size_some hs]
    omega

theorem Selection.start_mem_to_array (s : Selection) : s.start ∈ s.to_array := by
  rcases hs : s.stop with _ | e
  · rw [Selection.to_array_none hs]
    exact List.mem_singleton.mpr rfl
  · rw [Selection.to_array_some hs]
    refine List.mem_map.mpr ⟨0, List.mem_range.mpr (by omega), ?_⟩
    simp

theorem Selection.mem_to_array_some {s : Selection} {e : Hex} (h : s.stop = some e)
    {c : Hex} :
    c ∈ s.to_array ↔
      ∃ i : Nat, i ≤ max (e.x - s.start.x).natAbs (e.y - s.start.y).natAbs ∧
        c = ⟨s.start.x + i * s.unit.1, s.start.y + i * s.unit.2⟩ := by
  rw [Selection.to_array_some h]
  simp only [List.mem_map, List.mem_range]
  constructor
  · rintro ⟨i, hi, rfl⟩
    exact ⟨i, by omega, rfl⟩
  · rintro ⟨i, hi, rfl⟩
    exact ⟨i, by omega, rfl⟩

theorem Selection.unit_injective {s : Selection} (h : s.unit ≠ (0, 0)) :
    Function.Injective fun (i : Nat) =>
      (⟨s.start.x + i * s.unit.1, s.start.y + i * s.unit.2⟩ : Hex) := by
  intro i j hij
  rw [Hex.mk.injEq] at hij
  have h1 : (i : Int) * s.unit.1 = j * s.unit.1 := by omega
  have h2 : (i : Int) * s.unit.2 = j * s.unit.2 := by omega
  by_cases hu : s.unit.1 = 0
  · have hu2 : s.unit.2 ≠ 0 := by
      intro h2'
      exact h (Prod.ext hu h2')
    have := mul_right_cancel₀ hu2 h2
    exact_mod_cast this
  · have := mul_right_cancel₀ hu h1
    exact_mod_cast this

theorem Selection.unit_some {s : Selection} {e : Hex} (h : s.stop = some e) :
    s.unit = ((e.x - s.start.x).sign, (e.y - s.start.y).sign) := by
  unfold Selection.unit
  rw [h]

theorem Selection.to_array_nodup (s : Selection) : s.to_array.Nodup := by
  rcases hs : s.stop with _ | e
  · rw [Selection.to_array_none hs]
    exact List.nodup_singleton _
  · by_cases hu : s.unit = (0, 0)
    · rw [Selection.unit_some hs, Prod.mk.injEq, Int.sign_eq_zero_iff_zero,
        Int.sign_eq_zero_iff_zero] at hu
      rw [Selection.to_array_some hs, hu.1, hu.2]
      rw [show ((0 : Int).natAbs ⊔ (0 : Int).natAbs) + 1 = 1 by simp,
        show List.range 1 = [0] from rfl]
      simp
    · rw [Selection.to_array_some hs]
      exact (List.nodup_range _).map (Selection.unit_injective hu)

theorem Selection.to_array_size_one {s : Selection} (h : s.get_size = 1) :
    s.to_array = [s.start] := by
  rcases hs : s.stop with _ | e
  · exact Selection.to_array_none hs
  · rw [Selection.get_size_some hs] at h
    rw [Selection.to_array_some hs]
    have hm : max (e.x - s.start.x).natAbs (e.y - s.start.y).natAbs = 0 := by omega
    rw [hm, show List.range (0 + 1) = [0] from rfl]
    simp

/-- The scalar identity behind the collinearity analysis: along any of the
six axes, moving `max |dx| |dy|` unit steps recovers the difference. -/
theorem collinear_key (a b : Int) (hab : a = 0 ∨ b = 0 ∨ a = -b) :
    ((max a.natAbs b.natAbs : Nat) : Int) * a.sign = a ∧
      ((max a.natAbs b.natAbs : Nat) : Int) * b.sign = b := by
  rcases hab with rfl | rfl | rfl
  · constructor
    · simp
    · have hm : max (0 : Int).natAbs b.natAbs = b.natAbs := by simp
      rw [hm, mul_comm, Int.sign_mul_natAbs]
  · constructor
    · have hm : max a.natAbs (0 : Int).natAbs = a.natAbs := by simp
      rw [hm, mul_comm, Int.sign_mul_natAbs]
    · simp
  · have habs : (-b).natAbs = b.natAbs := Int.natAbs_neg b
    have hm : max (-b).natAbs b.natAbs = b.natAbs := by omega
    constructor
    · rw [hm, Int.sign_neg, mul_neg, mul_comm, Int.sign_mul_natAbs]
    · rw [hm, mul_comm, Int.sign_mul_natAbs]

/-- Under the collinearity invariant, the endpoint is the start advanced
`size − 1` steps along the unit vector. -/
theorem Selection.stop_eq_step {s : Selection} {e : Hex} (h : s.stop = some e)
    (hcol : s.Collinear) :
    e = ⟨s.start.x + ((max (e.x - s.start.x).natAbs (e.y - s.start.y).natAbs : Nat) : Int) * s.unit.1,
         s.start.y + ((max (e.x - s.start.x).natAbs (e.y - s.start.y).natAbs : Nat) : Int) * s.unit.2⟩ := by
  have hcol' := hcol
  unfold Selection.Collinear at hcol'
  rw [h] at hcol'
  obtain ⟨k1, k2⟩ := collinear_key (e.x - s.start.x) (e.y - s.start.y) hcol'
  have hu1 : s.unit.1 = (e.x - s.start.x).sign := by rw [Selection.unit_some h]
  have hu2 : s.unit.2 = (e.y - s.start.y).sign := by rw [Selection.unit_some h]
  rw [Hex.mk.injEq, hu1, hu2]
  omega

/-! ## Move structure -/

theorem HexDirection.value_ne_zero (d : HexDirection) : d.value ≠ (0, 0) := by
  cases d <;> simp [HexDirection.value]

theorem HexDirection.opposite_value (d : HexDirection) :
    d.opposite.value = (-d.value.1, -d.value.2) := by
  cases d <;> rfl

theorem Move.is_inline_iff {m : Move} :
    m.is_inline = true ↔
      ∃ e, m.selection.stop = some e ∧
        (m.direction.value = m.selection.unit ∨
          m.direction.value = (-m.selection.unit.1, -m.selection.unit.2)) := by
  unfold Move.is_inline
  rcases hs : m.selection.stop with _ | e
  · simp
  · simp only [Bool.or_eq_true, beq_iff_eq]
    constructor
    · rintro (h | h)
      · exact ⟨e, rfl, Or.inl h⟩
      · exact ⟨e, rfl, Or.inr h⟩
    · rintro ⟨e', -, h | h⟩
      · exact Or.inl h
      · exact Or.inr h

theorem Move.is_inline_unit_ne_zero {m : Move} (h : m.is_inline = true) :
    m.selection.unit ≠ (0, 0) := by
  obtain ⟨e, -, hd⟩ := Move.is_inline_iff.mp h
  intro hz
  rcases hd with hd | hd <;> rw [hz] at hd <;>
    exact HexDirection.value_ne_zero m.direction (by simpa using hd)

theorem Move.is_inline_size_ge_two {m : Move} (h : m.is_inline = true) :
    2 ≤ m.selection.get_size := by
  obtain ⟨e, hs, -⟩ := Move.is_inline_iff.mp h
  have hu := Move.is_inline_unit_ne_zero h
  rw [Selection.unit_some hs] at hu
  simp only [ne_eq, Prod.mk.injEq, not_and_or, Int.sign_eq_zero_iff_zero] at hu
  rw [Selection.get_size_some hs]
  rcases hu with hx | hx
  · have : 1 ≤ (e.x - m.selection.start.x).natAbs := by omega
    omega
  · have : 1 ≤ (e.y - m.selection.start.y).natAbs := by omega
    omega

theorem Move.is_inline_not_single {m : Move} (h : m.is_inline = true) :
    m.is_single = false := by
  have := Move.is_inline_size_ge_two h
  unfold Move.is_single
  simp only [beq_eq_false_iff_ne, ne_eq]
  omega

theorem Move.get_front_some {m : Move} {e : Hex} (hs : m.selection.stop = some e) :
    m.get_front =
      if m.direction.value = m.selection.unit then e else m.selection.start := by
  unfold Move.get_front
  rw [hs]

theorem Selection.to_array_mk_some (st e : Hex) :
    (Selection.mk st (some e)).to_array =
      (List.range (max (e.x - st.x).natAbs (e.y - st.y).natAbs + 1)).map
        fun (i : Nat) => ⟨st.x + i * (e.x - st.x).sign, st.y + i * (e.y - st.y).sign⟩ := rfl

theorem Selection.unit_mk_some (st e : Hex) :
    (Selection.mk st (some e)).unit = ((e.x - st.x).sign, (e.y - st.y).sign) := rfl

/-- Shifting a selection by a delta shifts its member array pointwise. -/
theorem Selection.to_array_shift (s : Selection) (d : Int × Int) :
    (Selection.mk (s.start.add d) (s.stop.map fun e => e.add d)).to_array =
      s.to_array.map fun c => c.add d := by
  obtain ⟨st, stp⟩ := s
  rcases stp with _ | e
  · rfl
  · show (Selection.mk (st.add d) (some (e.add d))).to_array = _
    rw [Selection.to_array_mk_some, Selection.to_array_mk_some, List.map_map]
    have hdx : (e.add d).x - (st.add d).x = e.x - st.x := by
      unfold Hex.add
      simp only
      ring
    have hdy : (e.add d).y - (st.add d).y = e.y - st.y := by
      unfold Hex.add
      simp only
      ring
    rw [hdx, hdy]
    refine List.map_congr_left fun i _ => ?_
    unfold Hex.add
    simp only [Function.comp_apply]
    rw [Hex.mk.injEq]
    constructor <;> ring

/-- The unit vector of a shifted selection is unchanged. -/
theorem Selection.unit_shift (s : Selection) (d : Int × Int) :
    (Selection.mk (s.start.add d) (s.stop.map fun e => e.add d)).unit = s.unit := by
  obtain ⟨st, stp⟩ := s
  rcases stp with _ | e
  · rfl
  · show (Selection.mk (st.add d) (some (e.add d))).unit = _
    rw [Selection.unit_mk_some, Selection.unit_mk_some]
    have hdx : (e.add d).x - (st.add d).x = e.x - st.x := by
      unfold Hex.add
      simp only
      ring
    have hdy : (e.add d).y - (st.add d).y = e.y - st.y := by
      unfold Hex.add
      simp only
      ring
    rw [hdx, hdy]

/-! ## The inline validation walk -/

theorem Hex.step_zero (c : Hex) (d : Int × Int) : Hex.step c d 0 = c := by
  unfold Hex.step
  cases c with
  | mk x y => simp

theorem Hex.step_succ (c : Hex) (d : Int × Int) (i : Nat) :
    (Hex.step c d i).add d = Hex.step c d (i + 1) := by
  unfold Hex.step Hex.add
  rw [Hex.mk.injEq]
  push_cast
  constructor <;> ring

theorem validInlineStep_nil (b : Board) (p : Color) (d : Int × Int) (size : Nat)
    (dest : Hex) (oob : Bool) : validInlineStep b p d size [] dest oob = true := rfl

theorem validInlineStep_oob (b : Board) (p : Color) (d : Int × Int) (size : Nat)
    (i : Nat) (is : List Nat) (dest : Hex) (oob : Bool)
    (h : cellInBounds (dest.add d) = false) :
    validInlineStep b p d size (i :: is) dest oob = oob := by
  conv_lhs => unfold validInlineStep
  simp [h]

theorem validInlineStep_empty (b : Board) (p : Color) (d : Int × Int) (size : Nat)
    (i : Nat) (is : List Nat) (dest : Hex) (oob : Bool)
    (hin : cellInBounds (dest.add d) = true) (h : b.get (dest.add d) = none) :
    validInlineStep b p d size (i :: is) dest oob = true := by
  conv_lhs => unfold validInlineStep
  simp [hin, h]

theorem validInlineStep_own (b : Board) (p : Color) (d : Int × Int) (size : Nat)
    (i : Nat) (is : List Nat) (dest : Hex) (oob : Bool)
    (hin : cellInBounds (dest.add d) = true) (h : b.get (dest.add d) = some p) :
    validInlineStep b p d size (i :: is) dest oob = false := by
  conv_lhs => unfold validInlineStep
  simp [hin, h]

theorem validInlineStep_opp_stop (b : Board) (p : Color) (d : Int × Int) (size : Nat)
    (i : Nat) (is : List Nat) (dest : Hex) (oob : Bool) (c : Color)
    (hin : cellInBounds (dest.add d) = true) (h : b.get (dest.add d) = some c)
    (hc : c ≠ p) (hsz : size ≤ i) :
    validInlineStep b p d size (i :: is) dest oob = false := by
  conv_lhs => unfold validInlineStep
  simp [hin, h, hc, hsz]

theorem validInlineStep_opp_go (b : Board) (p : Color) (d : Int × Int) (size : Nat)
    (i : Nat) (is : List Nat) (dest : Hex) (oob : Bool) (c : Color)
    (hin : cellInBounds (dest.add d) = true) (h : b.get (dest.add d) = some c)
    (hc : c ≠ p) (hsz : ¬ size ≤ i) :
    validInlineStep b p d size (i :: is) dest oob =
      validInlineStep b p d size is (dest.add d) true := by
  conv_lhs => unfold validInlineStep
  simp [hin, h, hc, hsz]

theorem Board.is_valid_move_inline (b : Board) (m : Move) (p : Color)
    (hin : m.is_inline = true) :
    b.is_valid_move m p = b.is_valid_inline_move m p := by
  unfold Board.is_valid_move
  rw [Move.is_inline_not_single hin, hin]
  simp

/-! ## Claims C1–C3: move validation -/

/-- C1: for an inline move of size S (selections hold 1–3 cells), the
validation walk continues past an opponent cell only while the number of
opponent cells seen so far is strictly less than S; hence if the S cells
ahead of the front are all opponent marbles, the move is rejected — a
size-S group can push at most S−1 opponents (a size-2 group can never
push 2, a size-3 group never 3). -/
theorem claim_C1 (b : Board) (m : Move) (p : Color)
    (hin : m.is_inline = true)
    (hS : m.selection.get_size ≤ 3)
    (hopp : ∀ i : Nat, 1 ≤ i → i ≤ m.selection.get_size →
      cellInBounds (Hex.step m.get_front m.direction.value i) = true ∧
        b.get (Hex.step m.get_front m.direction.value i) = some (Color.next p)) :
    b.is_valid_move m p = false := by
  rw [Board.is_valid_move_inline b m p hin]
  unfold Board.is_valid_inline_move
  have h2 := Move.is_inline_size_ge_two hin
  have hne : Color.next p ≠ p := Color.next_ne p
  have ha1 : m.get_front.add m.direction.value = Hex.step m.get_front m.direction.value 1 := by
    rw [← Hex.step_succ, Hex.step_zero]
  have ha2 : (Hex.step m.get_front m.direction.value 1).add m.direction.value
      = Hex.step m.get_front m.direction.value 2 := Hex.step_succ _ _ _
  have ha3 : (Hex.step m.get_front m.direction.value 2).add m.direction.value
      = Hex.step m.get_front m.direction.value 3 := Hex.step_succ _ _ _
  have hS23 : m.selection.get_size = 2 ∨ m.selection.get_size = 3 := by omega
  obtain ⟨hb1, hg1⟩ := hopp 1 (by omega) (by omega)
  obtain ⟨hb2, hg2⟩ := hopp 2 (by omega) (by omega)
  rcases hS23 with hS2 | hS3
  · rw [hS2]
    rw [validInlineStep_opp_go b p _ 2 1 [2, 3] _ false (Color.next p)
      (by rw [ha1]; exact hb1) (by rw [ha1]; exact hg1) hne (by omega)]
    rw [ha1]
    exact validInlineStep_opp_stop b p _ 2 2 [3] _ true (Color.next p)
      (by rw [ha2]; exact hb2) (by rw [ha2]; exact hg2) hne (by omega)
  · obtain ⟨hb3, hg3⟩ := hopp 3 (by omega) (by omega)
    rw [hS3]
    rw [validInlineStep_opp_go b p _ 3 1 [2, 3] _ false (Color.next p)
      (by rw [ha1]; exact hb1) (by rw [ha1]; exact hg1) hne (by omega)]
    rw [ha1]
    rw [validInlineStep_opp_go b p _ 3 2 [3] _ true (Color.next p)
      (by rw [ha2]; exact hb2) (by rw [ha2]; exact hg2) hne (by omega)]
    rw [ha2]
    exact validInlineStep_opp_stop b p _ 3 3 [] _ true (Color.next p)
      (by rw [ha3]; exact hb3) (by rw [ha3]; exact hg3) hne (by omega)

/-- C1 witness: on the 2-versus-2 board, black's size-2 eastward group may
not push the two white marbles ahead of it. -/
theorem claim_C1_witness :
    boardTwoOnTwo.is_valid_move moveTwoE Color.black = false :=
  claim_C1 boardTwoOnTwo moveTwoE Color.black (by decide) (by decide)
    (fun i h1 h2 => by
      have hsz : moveTwoE.selection.get_size = 2 := by decide
      rw [hsz] at h2
      interval_cases i
      · exact ⟨by decide, by decide⟩
      · exact ⟨by decide, by decide⟩)

/-- C2: when the inline validation walk falls off the board at step j+1
after seeing exactly j in-range opponent cells (j below the selection
size, so the walk is still going), the move is valid iff at least one
opponent was encountered before the edge; in particular a first-step exit
with no opponent ahead (j = 0) is rejected. -/
theorem claim_C2 (b : Board) (m : Move) (p : Color) (j : Nat)
    (hin : m.is_inline = true)
    (hopp : ∀ i : Nat, 1 ≤ i → i ≤ j →
      cellInBounds (Hex.step m.get_front m.direction.value i) = true ∧
        b.get (Hex.step m.get_front m.direction.value i) = some (Color.next p))
    (hjS : j < m.selection.get_size)
    (hj3 : j + 1 ≤ 3)
    (hedge : cellInBounds (Hex.step m.get_front m.direction.value (j + 1)) = false) :
    b.is_valid_move m p = decide (1 ≤ j) := by
  rw [Board.is_valid_move_inline b m p hin]
  unfold Board.is_valid_inline_move
  have hne : Color.next p ≠ p := Color.next_ne p
  have ha1 : m.get_front.add m.direction.value = Hex.step m.get_front m.direction.value 1 := by
    rw [← Hex.step_succ, Hex.step_zero]
  have ha2 : (Hex.step m.get_front m.direction.value 1).add m.direction.value
      = Hex.step m.get_front m.direction.value 2 := Hex.step_succ _ _ _
  have ha3 : (Hex.step m.get_front m.direction.value 2).add m.direction.value
      = Hex.step m.get_front m.direction.value 3 := Hex.step_succ _ _ _
  have hj012 : j = 0 ∨ j = 1 ∨ j = 2 := by omega
  rcases hj012 with hj | hj | hj
  · subst hj
    rw [validInlineStep_oob b p _ _ 1 [2, 3] _ false (by rw [ha1]; exact hedge)]
    rfl
  · subst hj
    obtain ⟨hb1, hg1⟩ := hopp 1 (by omega) (by omega)
    rw [validInlineStep_opp_go b p _ _ 1 [2, 3] _ false (Color.next p)
      (by rw [ha1]; exact hb1) (by rw [ha1]; exact hg1) hne (by omega)]
    rw [ha1]
    rw [validInlineStep_oob b p _ _ 2 [3] _ true (by rw [ha2]; exact hedge)]
    rfl
  · subst hj
    obtain ⟨hb1, hg1⟩ := hopp 1 (by omega) (by omega)
    obtain ⟨hb2, hg2⟩ := hopp 2 (by omega) (by omega)
    rw [validInlineStep_opp_go b p _ _ 1 [2, 3] _ false (Color.next p)
      (by rw [ha1]; exact hb1) (by rw [ha1]; exact hg1) hne (by omega)]
    rw [ha1]
    rw [validInlineStep_opp_go b p _ _ 2 [3] _ true (Color.next p)
      (by rw [ha2]; exact hb2) (by rw [ha2]; exact hg2) hne (by omega)]
    rw [ha2]
    rw [validInlineStep_oob b p _ _ 3 [] _ true (by rw [ha3]; exact hedge)]
    rfl

/-- C2 witness: black's size-2 eastward group with one white ahead and the
edge beyond pushes it off — the walk leaves the board having met one
opponent, so the move is valid (j = 1). -/
theorem claim_C2_witness :
    boardPush.is_valid_move movePushE Color.black = decide (1 ≤ 1) :=
  claim_C2 boardPush movePushE Color.black 1 (by decide)
    (fun i h1 h2 => by
      have hi : i = 1 := by omega
      subst hi
      exact ⟨by decide, by decide⟩)
    (by decide) (by decide) (by decide)

/-- Single and sidestep moves are valid exactly when every member cell's
destination is in bounds and unoccupied. -/
theorem valid_move_all_dests_char (b : Board) (m : Move) (p : Color)
    (h : m.is_single = true ∨ m.is_inline = false) :
    b.is_valid_move m p =
      (m.selection.to_array.all fun c =>
        cellInBounds (c.add m.direction.value) &&
          !(b.get (c.add m.direction.value)).isSome) := by
  by_cases hs : m.is_single = true
  · unfold Board.is_valid_move
    rw [if_pos hs]
    have h1 : m.selection.get_size = 1 := by
      unfold Move.is_single at hs
      simpa using hs
    rw [Selection.to_array_size_one h1]
    unfold Board.is_valid_single_move Board.cell_in_bounds
    simp only [List.all_cons, List.all_nil, Bool.and_true]
    cases hb : cellInBounds (m.selection.start.add m.direction.value) <;>
      cases hg : b.get (m.selection.start.add m.direction.value) <;>
        simp [hb, hg]
  · have hs' : m.is_single = false := by
      cases hsv : m.is_single
      · rfl
      · exact absurd hsv hs
    have hin : m.is_inline = false := by
      rcases h with h | h
      · exact absurd h hs
      · exact h
    unfold Board.is_valid_move
    rw [if_neg (by rw [hs']; exact Bool.false_ne_true), if_neg (by rw [hin]; exact Bool.false_ne_true)]
    unfold Board.is_valid_sidestep_move Board.cell_in_bounds
    rfl

/-- C3: a single move (selection size 1) and a sidestep move are valid
exactly when every member cell's destination is in bounds and unoccupied;
the current player plays no role (no ownership check), and a destination
holding the mover's own color rejects just like an opponent's. -/
theorem claim_C3 (b : Board) (m : Move) (p : Color)
    (h : m.is_single = true ∨ m.is_inline = false) :
    b.is_valid_move m p =
      (m.selection.to_array.all fun c =>
        cellInBounds (c.add m.direction.value) &&
          !(b.get (c.add m.direction.value)).isSome) :=
  valid_move_all_dests_char b m p h

/-- C3 witness: black's two-marble south-east sidestep into two empty
cells is valid, matching the all-destinations check. -/
theorem claim_C3_witness :
    boardPush.is_valid_move moveSideSE Color.black =
      (moveSideSE.selection.to_array.all fun c =>
        cellInBounds (c.add moveSideSE.direction.value) &&
          !(boardPush.get (c.add moveSideSE.direction.value)).isSome) :=
  claim_C3 boardPush moveSideSE Color.black (Or.inr (by decide))

/-! ## Applying a base move -/

theorem Board.get_apply_base_move (b : Board) (m : Move) (c : Hex) :
    (b.apply_base_move m).get c =
      if c ∈ m.get_destinations ∧ cellInBounds c = true then m.selection.get_player b
      else if c ∈ m.selection.to_array then none
      else b.get c := by
  unfold Board.apply_base_move
  by_cases hd : c ∈ m.get_destinations
  · by_cases hb : cellInBounds c = true
    · rw [Board.get_foldl_mem _ _ _ _ hd hb, if_pos ⟨hd, hb⟩]
    · have hbf : cellInBounds c = false := by
        cases h : cellInBounds c
        · rfl
        · exact absurd h hb
      rw [if_neg fun h => hb h.2, Board.get_oob _ hbf]
      split
      · rfl
      · rw [Board.get_oob _ hbf]
  · rw [Board.get_foldl_not_mem _ _ _ _ hd, if_neg fun h => hd h.1]
    by_cases ha : c ∈ m.selection.to_array
    · by_cases hb : cellInBounds c = true
      · rw [Board.get_foldl_mem _ _ _ _ ha hb, if_pos ha]
      · have hbf : cellInBounds c = false := by
          cases h : cellInBounds c
          · rfl
          · exact absurd h hb
        rw [if_pos ha, Board.get_oob _ hbf]
    · rw [Board.get_foldl_not_mem _ _ _ _ ha, if_neg ha]

theorem Board.apply_move_of_not_sumito (b : Board) (m : Move)
    (hns : m.is_sumito b = false) : b.apply_move m = b.apply_base_move m := by
  unfold Board.apply_move
  rw [hns]
  simp

/-! ## Claim C4: effect and frame of a non-sumito move -/

/-- C4: a non-sumito move, applied through `apply_move`, leaves the
mover's captured color on every destination cell, empties every source
cell that is not also a destination, and leaves every other cell exactly
as it was. -/
theorem claim_C4 (b : Board) (m : Move) (p : Color)
    (hns : m.is_sumito b = false)
    (hp : b.get m.selection.start = some p)
    (hD : ∀ c ∈ m.get_destinations, cellInBounds c = true) :
    (∀ c ∈ m.get_destinations, (b.apply_move m).get c = some p) ∧
      (∀ c ∈ m.selection.to_array, c ∉ m.get_destinations →
        (b.apply_move m).get c = none) ∧
      (∀ c : Hex, c ∉ m.selection.to_array → c ∉ m.get_destinations →
        (b.apply_move m).get c = b.get c) := by
  rw [Board.apply_move_of_not_sumito b m hns]
  have hpl : m.selection.get_player b = some p := hp
  refine ⟨?_, ?_, ?_⟩
  · intro c hc
    rw [Board.get_apply_base_move, if_pos ⟨hc, hD c hc⟩, hpl]
  · intro c hc hcd
    rw [Board.get_apply_base_move, if_neg fun h => hcd h.1, if_pos hc]
  · intro c hca hcd
    rw [Board.get_apply_base_move, if_neg fun h => hcd h.1, if_neg hca]

/-- C4 witness: black's sidestep on the push board fills (6,1), clears
(6,0) and leaves the white marble at (8,0) untouched. -/
theorem claim_C4_witness :
    (boardPush.apply_move moveSideSE).get ⟨6, 1⟩ = some Color.black ∧
      (boardPush.apply_move moveSideSE).get ⟨6, 0⟩ = none ∧
      (boardPush.apply_move moveSideSE).get ⟨8, 0⟩ = boardPush.get ⟨8, 0⟩ := by
  obtain ⟨h1, h2, h3⟩ := claim_C4 boardPush moveSideSE Color.black (by decide) (by decide)
    (fun c hc => by
      have hl : moveSideSE.get_destinations = [⟨6, 1⟩, ⟨7, 1⟩] := by decide
      rw [hl] at hc
      simp only [List.mem_cons, List.not_mem_nil, or_false] at hc
      rcases hc with rfl | rfl <;> decide)
  exact ⟨h1 ⟨6, 1⟩ (by decide), h2 ⟨6, 0⟩ (by decide) (by decide),
    h3 ⟨8, 0⟩ (by decide) (by decide)⟩

/-! ## Loading a board from layout data -/

theorem loadRow_items_none (r q : Nat) (line : List Nat) (b : Board)
    (h : b.items = none) : (loadRow b r q line).items = none := by
  induction line generalizing b q with
  | nil => exact h
  | cons v rest ih =>
    unfold loadRow
    refine ih _ _ ?_
    rcases Board.items_setItem_cases b ⟨(q : Int) + offset r, r⟩ (colorOfNat v) with h' | h'
    · exact h'
    · rw [h']
      exact h

theorem loadRows_items_none (r : Nat) (rows : List (List Nat)) (b : Board)
    (h : b.items = none) : (loadRows b r rows).items = none := by
  induction rows generalizing b r with
  | nil => exact h
  | cons line rest ih =>
    unfold loadRows
    exact ih _ _ (loadRow_items_none _ _ _ _ h)

theorem create_from_data_items (data : List (List Nat)) :
    (Board.create_from_data data).items = none :=
  loadRows_items_none _ _ _ rfl

theorem cacheWF_create_from_data (data : List (List Nat)) :
    cacheWF (Board.create_from_data data) :=
  Or.inl (create_from_data_items data)

theorem loadRow_layout (r q : Nat) (line : List Nat) (b : Board) :
    (loadRow b r q line).layout = b.layout := by
  induction line generalizing b q with
  | nil => rfl
  | cons v rest ih =>
    unfold loadRow
    rw [ih, Board.layout_setItem]

theorem loadRows_layout (r : Nat) (rows : List (List Nat)) (b : Board) :
    (loadRows b r rows).layout = b.layout := by
  induction rows generalizing b r with
  | nil => rfl
  | cons line rest ih =>
    unfold loadRows
    rw [ih, loadRow_layout]

theorem create_from_data_layout (data : List (List Nat)) :
    (Board.create_from_data data).layout = data :=
  loadRows_layout _ _ _

/-! ## Claim C8: the enumeration-cache invariant -/

/-- C8: the cache is always `None` or an exact reflection of the current
cell contents; both `__setitem__` and `enumerate` preserve this, the list
`enumerate` returns is the exact reflection, two `enumerate` calls with no
intervening write return the same list, a write to an in-bounds cell
invalidates the cache, and an `enumerate` after a write reflects the
written board. -/
theorem claim_C8 :
    (∀ (b : Board) (c : Hex) (v : Option Color), cacheWF b → cacheWF (b.setItem c v)) ∧
      (∀ b : Board, cacheWF b → cacheWF (b.enumerate).1) ∧
      (∀ b : Board, cacheWF b → (b.enumerate).2 = computeItems b) ∧
      (∀ b : Board, ((b.enumerate).1.enumerate).2 = (b.enumerate).2) ∧
      (∀ (b : Board) (c : Hex) (v : Option Color), cellInBounds c = true →
        (b.setItem c v).items = none) ∧
      (∀ (b : Board) (c : Hex) (v : Option Color), cacheWF b →
        ((b.setItem c v).enumerate).2 = computeItems (b.setItem c v)) :=
  ⟨cacheWF_setItem,
   cacheWF_enumerate,
   Board.enumerate_snd,
   Board.enumerate_stable,
   fun b c v h => by
     unfold Board.setItem
     rw [if_pos h],
   fun b c v h => Board.enumerate_snd _ (cacheWF_setItem b c v h)⟩

/-- C8 witness: on the concrete push board, a write keeps the invariant
and a subsequent enumerate reflects the written board. -/
theorem claim_C8_witness :
    cacheWF (boardPush.setItem ⟨4, 0⟩ (some Color.white)) ∧
      ((boardPush.setItem ⟨4, 0⟩ (some Color.white)).enumerate).2 =
        computeItems (boardPush.setItem ⟨4, 0⟩ (some Color.white)) :=
  ⟨claim_C8.1 boardPush ⟨4, 0⟩ (some Color.white) (cacheWF_create_from_data layoutPush),
   claim_C8.2.2.2.2.2 boardPush ⟨4, 0⟩ (some Color.white)
     (cacheWF_create_from_data layoutPush)⟩

/-! ## Counting toolkit -/

theorem countP_map_general {α β : Type} (f : α → β) (p : β → Bool) (l : List α) :
    (l.map f).countP p = l.countP fun a => p (f a) := by
  induction l with
  | nil => rfl
  | cons x xs ih => simp [List.countP_cons, ih]

theorem countP_flatMap_general {α β : Type} (f : α → List β) (p : β → Bool)
    (l : List α) :
    (l.flatMap f).countP p = (l.map fun a => (f a).countP p).sum := by
  induction l with
  | nil => rfl
  | cons x xs ih =>
    rw [show (x :: xs).flatMap f = f x ++ xs.flatMap f from rfl, List.countP_append, ih]
    simp

theorem countP_range_getD {α : Type} (l : List α) (d : α) (p : α → Bool) :
    (List.range l.length).countP (fun i => p (l.getD i d)) = l.countP p := by
  induction l with
  | nil => rfl
  | cons x xs ih =>
    rw [show (x :: xs).length = xs.length + 1 from rfl, List.range_succ_eq_map,
      List.countP_cons, countP_map_general]
    simp only [List.getD_cons_zero, List.getD_cons_succ]
    rw [List.countP_cons] at *
    omega

theorem countP_flip_one {α : Type} [DecidableEq α] (l : List α) (f g : α → Bool)
    (a : α) (hnd : l.Nodup) (ha : a ∈ l) (hfa : f a = true) (hga : g a = false)
    (hcong : ∀ c ∈ l, c ≠ a → f c = g c) :
    l.countP g + 1 = l.countP f := by
  induction l with
  | nil => cases ha
  | cons x xs ih =>
    rw [List.countP_cons, List.countP_cons]
    rcases List.mem_cons.mp ha with rfl | ha'
    · have hxs : ∀ c ∈ xs, f c = g c := fun c hc =>
        hcong c (List.mem_cons_of_mem _ hc)
          fun h => (List.nodup_cons.mp hnd).1 (h ▸ hc)
      have heq : xs.countP g = xs.countP f :=
        List.countP_congr fun c hc => by rw [hxs c hc]
      have h1 : (if g a = true then 1 else 0) = 0 := by
        rw [hga]
        simp
      have h2 : (if f a = true then 1 else 0) = 1 := by
        rw [hfa]
        simp
      omega
    · have hxa : x ≠ a := fun h => (List.nodup_cons.mp hnd).1 (h ▸ ha')
      rw [hcong x (List.mem_cons_self _ _) hxa]
      have := ih (List.nodup_cons.mp hnd).2 ha'
        fun c hc hne => hcong c (List.mem_cons_of_mem _ hc) hne
      omega

theorem countP_or_disjoint {α : Type} (l : List α) (p q : α → Bool)
    (h : ∀ c ∈ l, ¬(p c = true ∧ q c = true)) :
    l.countP (fun c => p c || q c) = l.countP p + l.countP q := by
  induction l with
  | nil => rfl
  | cons x xs ih =>
    rw [List.countP_cons, List.countP_cons, List.countP_cons,
      ih fun c hc => h c (List.mem_cons_of_mem _ hc)]
    have := h x (List.mem_cons_self _ _)
    cases hp : p x <;> cases hq : q x <;> simp [hp, hq] at * <;> omega

theorem countP_mem_nodup {α : Type} [DecidableEq α] (l M : List α)
    (hM : M.Nodup) (hMl : ∀ c ∈ M, c ∈ l) (hl : l.Nodup) :
    l.countP (fun c => decide (c ∈ M)) = M.length := by
  induction M with
  | nil =>
    rw [show (fun c => decide (c ∈ ([] : List α))) = fun _ => false from
      funext fun c => by simp]
    simp
  | cons m M' ih =>
    have hdis : ∀ c ∈ l, ¬(decide (c = m) = true ∧ decide (c ∈ M') = true) := by
      intro c _ ⟨h1, h2⟩
      rw [decide_eq_true_eq] at h1 h2
      exact (List.nodup_cons.mp hM).1 (h1 ▸ h2)
    have hsplit : l.countP (fun c => decide (c ∈ m :: M')) =
        l.countP (fun c => decide (c = m)) + l.countP (fun c => decide (c ∈ M')) := by
      rw [← countP_or_disjoint l _ _ hdis]
      refine List.countP_congr fun c _ => ?_
      simp [List.mem_cons]
    rw [hsplit, ih (List.nodup_cons.mp hM).2
      fun c hc => hMl c (List.mem_cons_of_mem _ hc)]
    have hcount : l.countP (fun c => decide (c = m)) = 1 := by
      rw [show (fun c => decide (c = m)) = fun c => c == m from funext fun c => by
        simp [Bool.beq_eq_decide_eq]]
      rw [← List.count]
      exact List.count_eq_one_of_mem hl (hMl m (List.mem_cons_self _ _))
    rw [hcount, List.length_cons]
    omega

/-! ## Reading back a loaded board -/

theorem loadRow_get_ne_row (b : Board) (r q : Nat) (line : List Nat) (c : Hex)
    (hc : c.y ≠ (r : Int)) : (loadRow b r q line).get c = b.get c := by
  induction line generalizing b q with
  | nil => rfl
  | cons v rest ih =>
    unfold loadRow
    rw [ih, Board.get_setItem, if_neg]
    rintro ⟨rfl, -⟩
    exact hc rfl

theorem loadRow_get_left (b : Board) (r q : Nat) (line : List Nat) (c : Hex)
    (hc : c.x < (q : Int) + offset r) : (loadRow b r q line).get c = b.get c := by
  induction line generalizing b q with
  | nil => rfl
  | cons v rest ih =>
    unfold loadRow
    rw [ih _ _ (by push_cast at *; omega), Board.get_setItem, if_neg]
    rintro ⟨rfl, -⟩
    simp only at hc
    omega

theorem loadRow_get_at (b : Board) (r q : Nat) (line : List Nat) (i : Nat)
    (hi : i < line.length) :
    (loadRow b r q line).get ⟨(q : Int) + offset r + i, r⟩ =
      (if cellInBounds ⟨(q : Int) + offset r + i, r⟩ then colorOfNat (line.getD i 0)
       else none) := by
  induction line generalizing b q i with
  | nil => exact absurd hi (by simp)
  | cons v rest ih =>
    unfold loadRow
    rcases i with _ | i'
    · rw [loadRow_get_left _ _ _ _ _ (by push_cast; omega), Board.get_setItem]
      have hcell : (⟨(q : Int) + offset r + (0 : Nat), (r : Int)⟩ : Hex) =
          ⟨(q : Int) + offset r, (r : Int)⟩ := by
        rw [Hex.mk.injEq]
        constructor
        · push_cast
          ring
        · rfl
      rw [hcell]
      split
      · rename_i hin
        rw [if_pos (by exact hin.2)]
        rfl
      · rename_i hin
        rw [if_neg]
        · rw [Board.get_oob]
          cases hb : cellInBounds (⟨(q : Int) + offset r, (r : Int)⟩ : Hex)
          · rfl
          · exact absurd ⟨rfl, hb⟩ hin
        · intro hb
          exact hin ⟨rfl, hb⟩
    · have hcell : (⟨(q : Int) + offset r + ((i' + 1 : Nat) : Int), (r : Int)⟩ : Hex) =
          ⟨((q + 1 : Nat) : Int) + offset r + (i' : Int), (r : Int)⟩ := by
        rw [Hex.mk.injEq]
        constructor
        · push_cast
          ring
        · rfl
      rw [hcell, ih _ _ _ (by simpa using hi), List.getD_cons_succ]

theorem loadRows_get_below (b : Board) (r : Nat) (rows : List (List Nat)) (c : Hex)
    (hc : c.y < (r : Int)) : (loadRows b r rows).get c = b.get c := by
  induction rows generalizing b r with
  | nil => rfl
  | cons line rest ih =>
    unfold loadRows
    rw [ih _ _ (by push_cast at *; omega), loadRow_get_ne_row _ _ _ _ _ (by omega)]

theorem loadRows_get_at (rows : List (List Nat)) (b : Board) (r0 k i : Nat)
    (hk : k < rows.length) (hi : i < (rows.getD k []).length) :
    (loadRows b r0 rows).get ⟨((r0 + k : Nat) : Int) * 0 + offset ((r0 + k : Nat) : Int) + i, ((r0 + k : Nat) : Int)⟩ =
      (if cellInBounds ⟨offset ((r0 + k : Nat) : Int) + i, ((r0 + k : Nat) : Int)⟩ then
        colorOfNat ((rows.getD k []).getD i 0)
       else none) := by
  induction rows generalizing b r0 k with
  | nil => exact absurd hk (by simp)
  | cons line rest ih =>
    unfold loadRows
    rcases k with _ | k'
    · have hy : ((r0 + 0 : Nat) : Int) = (r0 : Int) := by push_cast; ring
      rw [loadRows_get_below _ _ _ _ (by push_cast; omega)]
      have hcell : (⟨((r0 + 0 : Nat) : Int) * 0 + offset ((r0 + 0 : Nat) : Int) + i, ((r0 + 0 : Nat) : Int)⟩ : Hex) =
          ⟨((0 : Nat) : Int) + offset r0 + i, (r0 : Int)⟩ := by
        rw [Hex.mk.injEq]
        constructor
        · push_cast
          ring
        · push_cast
          ring
      rw [hcell, loadRow_get_at _ _ _ _ _ (by simpa using hi)]
      have hcell2 : (⟨((0 : Nat) : Int) + offset r0 + i, (r0 : Int)⟩ : Hex) =
          (⟨offset ((r0 + 0 : Nat) : Int) + i, ((r0 + 0 : Nat) : Int)⟩ : Hex) := by
        rw [Hex.mk.injEq]
        constructor
        · rw [hy]
          push_cast
          ring
        · rw [hy]
      rw [hcell2]
      simp only [List.getD_cons_zero]
    · have hre : ((r0 + (k' + 1) : Nat) : Int) = (((r0 + 1) + k' : Nat) : Int) := by
        push_cast
        ring
      have hcell : (⟨((r0 + (k' + 1) : Nat) : Int) * 0 + offset ((r0 + (k' + 1) : Nat) : Int) + i, ((r0 + (k' + 1) : Nat) : Int)⟩ : Hex) =
          ⟨(((r0 + 1) + k' : Nat) : Int) * 0 + offset (((r0 + 1) + k' : Nat) : Int) + i, (((r0 + 1) + k' : Nat) : Int)⟩ := by
        rw [hre]
      rw [hcell, ih _ _ _ (by simpa using hk) (by simpa using hi)]
      have hcond : (⟨offset (((r0 + 1) + k' : Nat) : Int) + i, (((r0 + 1) + k' : Nat) : Int)⟩ : Hex) =
          ⟨offset ((r0 + (k' + 1) : Nat) : Int) + i, ((r0 + (k' + 1) : Nat) : Int)⟩ := by
        rw [hre]
      rw [hcond]
      simp only [List.getD_cons_succ]

theorem create_get_at (data : List (List Nat)) (r i : Nat)
    (hr : r < data.length) (hi : i < (data.getD r []).length) :
    (Board.create_from_data data).get ⟨offset r + i, r⟩ =
      (if cellInBounds ⟨offset r + i, r⟩ then colorOfNat ((data.getD r []).getD i 0)
       else none) := by
  unfold Board.create_from_data
  have h0 : ((0 + r : Nat) : Int) = (r : Int) := by
    push_cast
    ring
  have hcell : (⟨offset (r : Int) + i, (r : Int)⟩ : Hex) =
      ⟨((0 + r : Nat) : Int) * 0 + offset ((0 + r : Nat) : Int) + i, ((0 + r : Nat) : Int)⟩ := by
    rw [h0, Hex.mk.injEq]
    constructor
    · ring
    · rfl
  rw [hcell, loadRows_get_at data _ 0 r i (by omega) hi]
  have hcell2 : (⟨offset ((0 + r : Nat) : Int) + i, ((0 + r : Nat) : Int)⟩ : Hex) =
      ⟨offset (r : Int) + i, (r : Int)⟩ := by
    rw [h0]
  rw [hcell2, ← hcell]

theorem map_range_getD {α β : Type} (l : List α) (d : α) (f : α → β) :
    (List.range l.length).map (fun i => f (l.getD i d)) = l.map f := by
  induction l with
  | nil => rfl
  | cons x xs ih =>
    rw [show (x :: xs).length = xs.length + 1 from rfl, List.range_succ_eq_map,
      List.map_cons, List.map_map]
    rw [show List.map ((fun i => f ((x :: xs).getD i d)) ∘ Nat.succ) (List.range xs.length)
        = List.map (fun i => f (xs.getD i d)) (List.range xs.length) from
      List.map_congr_left fun i _ => by simp]
    rw [ih, List.map_cons, List.getD_cons_zero]

theorem cellInBounds_offset (r i : Nat) (hr : r < 9) (hi : i < rowLenNat r) :
    cellInBounds ⟨offset r + i, r⟩ = true := by
  rw [← mem_allCells]
  unfold allCells
  rw [List.mem_flatMap]
  exact ⟨r, List.mem_range.mpr (by unfold BOARD_SIZE; omega),
    List.mem_map.mpr ⟨i, List.mem_range.mpr hi, rfl⟩⟩

theorem colorOfNat_beq (v : Nat) (col : Color) :
    (colorOfNat v == some col) = (v == col.value) := by
  unfold colorOfNat Color.value
  cases col <;> by_cases h1 : v = 1 <;> by_cases h2 : v = 2 <;>
    simp [h1, h2]

theorem countColor_create (data : List (List Nat)) (col : Color)
    (hlen : data.length = 9)
    (hrows : ∀ r : Nat, r < 9 → (data.getD r []).length = rowLenNat r) :
    countColor (Board.create_from_data data) col = layoutCount data col := by
  unfold countColor
  rw [show allCells = (List.range 9).flatMap
      (fun r => (List.range (rowLenNat r)).map fun (i : Nat) => (⟨offset r + i, r⟩ : Hex))
    from rfl]
  rw [countP_flatMap_general]
  have hinner : ∀ r ∈ List.range 9,
      ((List.range (rowLenNat r)).map fun (i : Nat) => (⟨offset r + i, r⟩ : Hex)).countP
          (fun c => (Board.create_from_data data).get c == some col) =
        (fun line => line.countP fun v => v == col.value) (data.getD r []) := by
    intro r hr
    have hr9 : r < 9 := List.mem_range.mp hr
    rw [countP_map_general]
    have hlenr : rowLenNat r = (data.getD r []).length := (hrows r hr9).symm
    rw [hlenr]
    show _ = (data.getD r []).countP fun v => v == col.value
    rw [← countP_range_getD (data.getD r []) 0 fun v => v == col.value]
    refine List.countP_congr fun i hi => ?_
    have hi' : i < (data.getD r []).length := List.mem_range.mp hi
    rw [create_get_at data r i (by omega) hi',
      if_pos (cellInBounds_offset r i hr9 (by omega)), colorOfNat_beq]
  rw [List.map_congr_left hinner]
  rw [← hlen, map_range_getD]
  rfl

/-! ## Claim C6: score derivation -/

/-- C6: for boards carrying a stored layout, `get_score` is the count of
opponent codes in the layout minus the opponent's live cell count; and on
a freshly created board (well-shaped data, no moves applied) the score is
0 for either player. -/
theorem claim_C6 (data : List (List Nat)) (p : Color)
    (hlen : data.length = 9)
    (hrows : ∀ r : Nat, r < 9 → (data.getD r []).length = rowLenNat r) :
    (∀ b : Board, cacheWF b → b.layout = data →
      b.get_score p =
        (layoutCount data (Color.next p) : Int) - (countColor b (Color.next p) : Int)) ∧
      (Board.create_from_data data).get_score p = 0 := by
  have hpart1 : ∀ b : Board, cacheWF b → b.layout = data →
      b.get_score p =
        (layoutCount data (Color.next p) : Int) - (countColor b (Color.next p) : Int) := by
    intro b hWF hlay
    simp only [Board.get_score]
    rw [hlay, Board.enumerate_snd b hWF]
    simp only [computeItems]
    rw [countP_map_general]
    rfl
  refine ⟨hpart1, ?_⟩
  rw [hpart1 _ (cacheWF_create_from_data data) (create_from_data_layout data),
    countColor_create data (Color.next p) hlen hrows]
  omega

/-- C6 witness: on the freshly loaded push board both the score identity
and the zero initial score hold for black. -/
theorem claim_C6_witness :
    boardPush.get_score Color.black =
        (layoutCount layoutPush Color.white : Int) -
          (countColor boardPush Color.white : Int) ∧
      (Board.create_from_data layoutPush).get_score Color.black = 0 := by
  obtain ⟨h1, h2⟩ := claim_C6 layoutPush Color.black (by decide)
    (fun r hr => by interval_cases r <;> decide)
  exact ⟨h1 boardPush (cacheWF_create_from_data layoutPush)
    (create_from_data_layout layoutPush), h2⟩

/-! ## The line-selection loop terminates and selects the maximal run -/

theorem dirMono_bounds {d : HexDirection} {c : Hex} (h : cellInBounds c = true) :
    dirMono d c ≤ 8 ∧ -8 ≤ dirMono d c := by
  have hb := coord_bounds h
  cases d <;> simp [dirMono] <;> omega

theorem dirMono_step (d : HexDirection) (c : Hex) :
    dirMono d (c.add d.value) = dirMono d c + 1 := by
  cases d <;> simp [dirMono, Hex.add, HexDirection.value] <;> ring

theorem Hex.step_shift (c : Hex) (d : Int × Int) (j : Nat) :
    Hex.step (c.add d) d j = Hex.step c d (j + 1) := by
  unfold Hex.step Hex.add
  rw [Hex.mk.injEq]
  push_cast
  constructor <;> ring

theorem selectLoop_spec (b : Board) (col : Color) (d : HexDirection) :
    ∀ (fuel : Nat) (dest next : Hex), dirFuel d next ≤ fuel →
      (if cellInBounds next && (b.get next == some col) then
        ∃ k : Nat, 1 ≤ k ∧
          (∀ i : Nat, i < k → cellInBounds (Hex.step next d.value i) = true ∧
            b.get (Hex.step next d.value i) = some col) ∧
          ¬(cellInBounds (Hex.step next d.value k) = true ∧
            b.get (Hex.step next d.value k) = some col) ∧
          selectLoop b col d.value fuel dest next = some (Hex.step next d.value (k - 1))
      else selectLoop b col d.value fuel dest next = some dest) := by
  intro fuel
  induction fuel with
  | zero =>
    intro dest next hfuel
    split
    · rename_i hok
      rw [Bool.and_eq_true, beq_iff_eq] at hok
      have hm := (dirMono_bounds (d := d) hok.1).1
      unfold dirFuel at hfuel
      omega
    · rename_i hok
      conv_lhs => unfold selectLoop
      split
      · rename_i hok'
        exact absurd hok' hok
      · rfl
  | succ f ih =>
    intro dest next hfuel
    split
    · rename_i hok
      have hok' := hok
      rw [Bool.and_eq_true, beq_iff_eq] at hok'
      obtain ⟨hin, hg⟩ := hok'
      have hm := dirMono_bounds (d := d) hin
      have hfuel' : dirFuel d (next.add d.value) ≤ f := by
        unfold dirFuel at *
        rw [dirMono_step]
        omega
      have hrec : selectLoop b col d.value (f + 1) dest next =
          selectLoop b col d.value f next (next.add d.value) := by
        conv_lhs => unfold selectLoop
        rw [if_pos hok]
      have ihr := ih next (next.add d.value) hfuel'
      split at ihr
      · obtain ⟨k', hk1, hks, hnk, hres⟩ := ihr
        refine ⟨k' + 1, by omega, ?_, ?_, ?_⟩
        · intro i hi
          rcases i with _ | j
          · rw [Hex.step_zero]
            exact ⟨hin, hg⟩
          · rw [show j + 1 = j + 1 from rfl, ← Hex.step_shift]
            exact hks j (by omega)
        · rw [← Hex.step_shift]
          exact hnk
        · rw [hrec, hres, show k' + 1 - 1 = (k' - 1) + 1 from by omega, ← Hex.step_shift]
      · rename_i hnok
        refine ⟨1, le_refl 1, ?_, ?_, ?_⟩
        · intro i hi
          have : i = 0 := by omega
          subst this
          rw [Hex.step_zero]
          exact ⟨hin, hg⟩
        · intro hc
          rw [show (1 : Nat) = 0 + 1 from rfl, ← Hex.step_shift, Hex.step_zero] at hc
          rw [Bool.and_eq_true, beq_iff_eq] at hnok
          push_neg at hnok
          exact absurd hc.2 (hnok hc.1)
        · rw [hrec, ihr, Hex.step_zero]
    · rename_i hok
      conv_lhs => unfold selectLoop
      split
      · rename_i hok'
        exact absurd hok' hok
      · rfl

/-! ## Claim C9: line selection by color run -/

/-- C9: from an in-bounds cell, `select_marbles_in_line` returns `none`
when the start is unoccupied; otherwise it returns the selection from the
start to the last cell of the maximal contiguous same-colored run in the
given direction, the run ending at the first out-of-bounds, empty or
differently-colored cell. -/
theorem claim_C9 (b : Board) (start : Hex) (dir : HexDirection)
    (hin : cellInBounds start = true) :
    (b.get start = none → b.select_marbles_in_line start dir = none) ∧
      (∀ col : Color, b.get start = some col →
        ∃ n : Nat,
          (∀ i : Nat, i ≤ n → cellInBounds (Hex.step start dir.value i) = true ∧
            b.get (Hex.step start dir.value i) = some col) ∧
          ¬(cellInBounds (Hex.step start dir.value (n + 1)) = true ∧
            b.get (Hex.step start dir.value (n + 1)) = some col) ∧
          b.select_marbles_in_line start dir =
            some ⟨start, some (Hex.step start dir.value n)⟩) := by
  constructor
  · intro hnone
    unfold Board.select_marbles_in_line
    rw [hnone]
  · intro col hcol
    have hfuel : dirFuel dir start ≤ 18 := by
      have := (dirMono_bounds (d := dir) hin).2
      unfold dirFuel
      omega
    have hspec := selectLoop_spec b col dir 18 start start hfuel
    rw [if_pos (by rw [Bool.and_eq_true, beq_iff_eq]; exact ⟨hin, hcol⟩)] at hspec
    obtain ⟨k, hk1, hks, hnk, hres⟩ := hspec
    refine ⟨k - 1, ?_, ?_, ?_⟩
    · intro i hi
      exact hks i (by omega)
    · rw [show k - 1 + 1 = k from by omega]
      exact hnk
    · unfold Board.select_marbles_in_line
      rw [hcol]
      show (match selectLoop b col dir.value 18 start start with
        | some dest_cell => some (Selection.mk start (some (Hex.mk dest_cell.x dest_cell.y)))
        | none => (none : Option Selection)) =
          some (Selection.mk start (some (Hex.step start dir.value (k - 1))))
      rw [hres]

/-- C9 witness: on the push board the eastward run from (6,0) is the two
black marbles ending at (7,0), and selecting from the empty cell (4,0)
yields nothing. -/
theorem claim_C9_witness :
    boardPush.select_marbles_in_line ⟨6, 0⟩ HexDirection.E =
        some ⟨⟨6, 0⟩, some ⟨7, 0⟩⟩ ∧
      boardPush.select_marbles_in_line ⟨4, 0⟩ HexDirection.E = none := by
  constructor
  · obtain ⟨n, h1, h2, h3⟩ :=
      (claim_C9 boardPush ⟨6, 0⟩ HexDirection.E (by decide)).2 Color.black (by decide)
    have hn : n = 1 := by
      by_contra hne
      rcases Nat.lt_or_ge n 1 with h | h
      · have h0 : n = 0 := by omega
        subst h0
        exact h2 ⟨by decide, by decide⟩
      · have h2ge : 2 ≤ n := by omega
        have hc2 := (h1 2 h2ge).2
        have hw : boardPush.get (Hex.step ⟨6, 0⟩ HexDirection.E.value 2) =
            some Color.white := by decide
        rw [hw] at hc2
        exact absurd hc2 (by decide)
    rw [hn] at h3
    exact h3
  · exact (claim_C9 boardPush ⟨4, 0⟩ HexDirection.E (by decide)).1 (by decide)

/-! ## Line geometry of inline selections -/

theorem smul_eq_zero_components {u : Int × Int} (hu : u ≠ (0, 0)) (k : Int)
    (h1 : k * u.1 = 0) (h2 : k * u.2 = 0) : k = 0 := by
  by_contra hk
  rcases mul_eq_zero.mp h1 with h | h
  · exact hk h
  · rcases mul_eq_zero.mp h2 with h' | h'
    · exact hk h'
    · exact hu (Prod.ext h h')

theorem Hex.zstep_inj {u : Int × Int} (hu : u ≠ (0, 0)) (a : Hex) {k1 k2 : Int}
    (h : Hex.zstep a u k1 = Hex.zstep a u k2) : k1 = k2 := by
  unfold Hex.zstep at h
  rw [Hex.mk.injEq] at h
  have h1 : (k1 - k2) * u.1 = 0 := by
    rw [sub_mul]
    omega
  have h2 : (k1 - k2) * u.2 = 0 := by
    rw [sub_mul]
    omega
  have := smul_eq_zero_components hu _ h1 h2
  omega

theorem Hex.zstep_add (a : Hex) (u : Int × Int) (k : Int) :
    (Hex.zstep a u k).add u = Hex.zstep a u (k + 1) := by
  unfold Hex.zstep Hex.add
  rw [Hex.mk.injEq]
  constructor <;> ring

theorem Hex.zstep_sub (a : Hex) (u : Int × Int) (k : Int) :
    (Hex.zstep a u k).add (-u.1, -u.2) = Hex.zstep a u (k - 1) := by
  unfold Hex.zstep Hex.add
  rw [Hex.mk.injEq]
  constructor <;> (simp only; ring)

theorem Hex.zstep_natCast (a : Hex) (u : Int × Int) (i : Nat) :
    (⟨a.x + (i : Int) * u.1, a.y + (i : Int) * u.2⟩ : Hex) = Hex.zstep a u i := rfl

theorem Selection.mem_to_array_zstep {s : Selection} {e : Hex} (h : s.stop = some e)
    {c : Hex} :
    c ∈ s.to_array ↔
      ∃ i : Nat, i ≤ max (e.x - s.start.x).natAbs (e.y - s.start.y).natAbs ∧
        c = Hex.zstep s.start s.unit i :=
  Selection.mem_to_array_some h

theorem Selection.stop_eq_zstep {s : Selection} {e : Hex} (h : s.stop = some e)
    (hcol : s.Collinear) :
    e = Hex.zstep s.start s.unit
      (max (e.x - s.start.x).natAbs (e.y - s.start.y).natAbs : Nat) :=
  Selection.stop_eq_step h hcol

theorem Hex.zstep_zero (a : Hex) (u : Int × Int) : Hex.zstep a u 0 = a := by
  unfold Hex.zstep
  cases a with
  | mk x y => simp

theorem inline_geometry (m : Move) (hin : m.is_inline = true)
    (hcol : m.selection.Collinear) :
    m.get_front ∈ m.selection.to_array ∧
      m.get_front.add m.direction.value ∉ m.selection.to_array ∧
      m.get_front.add m.direction.value ∈ m.get_destinations ∧
      (∀ c ∈ m.get_destinations,
        c ∈ m.selection.to_array ∨ c = m.get_front.add m.direction.value) ∧
      (∃ back, back ∈ m.selection.to_array ∧ back ∉ m.get_destinations ∧
        back =
          (Move.mk
            (Selection.mk (m.selection.start.add m.direction.value)
              (m.selection.stop.map fun c => c.add m.direction.value))
            m.direction.opposite).get_front.add m.direction.opposite.value) := by
  obtain ⟨e, hs, hd⟩ := Move.is_inline_iff.mp hin
  have hu0 : m.selection.unit ≠ (0, 0) := Move.is_inline_unit_ne_zero hin
  have hstep := Selection.stop_eq_zstep hs hcol
  have hmemA : ∀ c : Hex, c ∈ m.selection.to_array ↔
      ∃ i : Nat, i ≤ max (e.x - m.selection.start.x).natAbs
        (e.y - m.selection.start.y).natAbs ∧
        c = Hex.zstep m.selection.start m.selection.unit i :=
    fun c => Selection.mem_to_array_zstep hs
  have hmemD : ∀ c : Hex, c ∈ m.get_destinations ↔
      ∃ i : Nat, i ≤ max (e.x - m.selection.start.x).natAbs
        (e.y - m.selection.start.y).natAbs ∧
        c = (Hex.zstep m.selection.start m.selection.unit i).add m.direction.value := by
    intro c
    unfold Move.get_destinations
    rw [List.mem_map]
    constructor
    · rintro ⟨a, ha, rfl⟩
      obtain ⟨i, hi, rfl⟩ := (hmemA a).mp ha
      exact ⟨i, hi, rfl⟩
    · rintro ⟨i, hi, rfl⟩
      exact ⟨_, (hmemA _).mpr ⟨i, hi, rfl⟩, rfl⟩
  have hn1 : 1 ≤ max (e.x - m.selection.start.x).natAbs
      (e.y - m.selection.start.y).natAbs := by
    have h2 := Move.is_inline_size_ge_two hin
    rw [Selection.get_size_some hs] at h2
    omega
  set M : Nat := max (e.x - m.selection.start.x).natAbs
    (e.y - m.selection.start.y).natAbs with hM
  have hstop' : (Selection.mk (m.selection.start.add m.direction.value)
      (m.selection.stop.map fun c => c.add m.direction.value)).stop =
        some (e.add m.direction.value) := by
    rw [show (Selection.mk (m.selection.start.add m.direction.value)
      (m.selection.stop.map fun c => c.add m.direction.value)).stop =
        m.selection.stop.map fun c => c.add m.direction.value from rfl, hs]
    rfl
  have hunit' : (Selection.mk (m.selection.start.add m.direction.value)
      (m.selection.stop.map fun c => c.add m.direction.value)).unit =
        m.selection.unit := Selection.unit_shift m.selection m.direction.value
  have hstart' : (Selection.mk (m.selection.start.add m.direction.value)
      (m.selection.stop.map fun c => c.add m.direction.value)).start =
        m.selection.start.add m.direction.value := rfl
  have hopp : m.direction.opposite.value =
      (-m.direction.value.1, -m.direction.value.2) :=
    HexDirection.opposite_value m.direction
  have hneu : (-m.selection.unit.1, -m.selection.unit.2) ≠ m.selection.unit := by
    intro h
    rw [Prod.mk.injEq] at h
    apply hu0
    have h1 : m.selection.unit.1 = 0 := by omega
    have h2 : m.selection.unit.2 = 0 := by omega
    exact Prod.ext h1 h2
  have hz0 : Hex.zstep m.selection.start m.selection.unit ((0 : Nat) : Int) =
      m.selection.start := by
    rw [show ((0 : Nat) : Int) = 0 from rfl, Hex.zstep_zero]
  rcases hd with hdu | hdnu
  · -- travelling from start towards e
    have hfront : m.get_front = e := by
      rw [Move.get_front_some hs, if_pos hdu]
    have hfd : m.get_front.add m.direction.value =
        Hex.zstep m.selection.start m.selection.unit ((M : Int) + 1) := by
      rw [hfront, hdu, hstep, Hex.zstep_add]
    refine ⟨?_, ?_, ?_, ?_, ?_⟩
    · rw [hfront]
      exact (hmemA e).mpr ⟨M, le_refl M, hstep⟩
    · intro hmem
      obtain ⟨i, hi, heq⟩ := (hmemA _).mp hmem
      rw [hfd] at heq
      have := Hex.zstep_inj hu0 m.selection.start heq.symm
      omega
    · refine (hmemD _).mpr ⟨M, le_refl M, ?_⟩
      rw [hfd, hdu, Hex.zstep_add]
    · intro c hc
      obtain ⟨i, hi, rfl⟩ := (hmemD c).mp hc
      by_cases hilt : i < M
      · left
        refine (hmemA _).mpr ⟨i + 1, by omega, ?_⟩
        rw [hdu, Hex.zstep_add,
          show ((i + 1 : Nat) : Int) = (i : Int) + 1 from by push_cast; ring]
      · right
        have hieq : i = M := by omega
        rw [hieq, ← hstep, ← hfront]
    · refine ⟨m.selection.start, (hmemA _).mpr ⟨0, by omega, hz0.symm⟩, ?_, ?_⟩
      · intro hmem
        obtain ⟨i, hi, heq⟩ := (hmemD _).mp hmem
        rw [hdu, Hex.zstep_add] at heq
        have heq' : Hex.zstep m.selection.start m.selection.unit 0 =
            Hex.zstep m.selection.start m.selection.unit ((i : Int) + 1) := by
          rw [Hex.zstep_zero]
          exact heq
        have := Hex.zstep_inj hu0 m.selection.start heq'
        omega
      · rw [Move.get_front_some hstop', hunit',
          if_neg (by rw [hopp, hdu]; exact hneu), hstart', hopp, hdu]
        rw [show m.selection.start.add m.selection.unit =
            Hex.zstep m.selection.start m.selection.unit (0 + 1) from by
          rw [← Hex.zstep_add, Hex.zstep_zero]]
        rw [Hex.zstep_sub, show (0 : Int) + 1 - 1 = 0 from by omega, Hex.zstep_zero]
  · -- travelling from e towards start
    have hfront : m.get_front = m.selection.start := by
      rw [Move.get_front_some hs, if_neg (by rw [hdnu]; exact hneu)]
    have hfd : m.get_front.add m.direction.value =
        Hex.zstep m.selection.start m.selection.unit (0 - 1) := by
      rw [hfront, hdnu]
      unfold Hex.zstep Hex.add
      rw [Hex.mk.injEq]
      constructor <;> (simp only; ring)
    refine ⟨?_, ?_, ?_, ?_, ?_⟩
    · rw [hfront]
      exact (hmemA _).mpr ⟨0, by omega, hz0.symm⟩
    · intro hmem
      obtain ⟨i, hi, heq⟩ := (hmemA _).mp hmem
      rw [hfd] at heq
      have := Hex.zstep_inj hu0 m.selection.start heq.symm
      omega
    · refine (hmemD _).mpr ⟨0, by omega, ?_⟩
      rw [hfront, hz0]
    · intro c hc
      obtain ⟨i, hi, rfl⟩ := (hmemD c).mp hc
      rcases Nat.eq_zero_or_pos i with hi0 | hipos
      · right
        rw [hi0, hz0, hfront, hdnu]
      · left
        refine (hmemA _).mpr ⟨i - 1, by omega, ?_⟩
        rw [hdnu, Hex.zstep_sub,
          show ((i - 1 : Nat) : Int) = (i : Int) - 1 from by omega]
    · refine ⟨e, (hmemA e).mpr ⟨M, le_refl M, hstep⟩, ?_, ?_⟩
      · intro hmem
        obtain ⟨i, hi, heq⟩ := (hmemD _).mp hmem
        rw [hdnu, Hex.zstep_sub, hstep] at heq
        have := Hex.zstep_inj hu0 m.selection.start heq
        omega
      · rw [Move.get_front_some hstop', hunit', if_pos (by
          rw [hopp, hdnu]
          simp), hopp, hdnu]
        rw [show (- -m.selection.unit.1, - -m.selection.unit.2) =
            m.selection.unit from by simp]
        rw [show e.add (-m.selection.unit.1, -m.selection.unit.2) =
            Hex.zstep m.selection.start m.selection.unit ((M : Int) - 1) from by
          rw [hstep, Hex.zstep_sub]]
        rw [Hex.zstep_add, show (M : Int) - 1 + 1 = (M : Int) from by omega, ← hstep]

/-! ## Facts forced by validity of a non-sumito move -/

theorem Color.eq_next_of_ne {c p : Color} (h : c ≠ p) : c = Color.next p := by
  cases c <;> cases p <;> simp [Color.next] at *

theorem inline_first_step_facts (b : Board) (m : Move) (p : Color)
    (hin : m.is_inline = true)
    (hstart : b.get m.selection.start = some p)
    (hval : b.is_valid_move m p = true)
    (hns : m.is_sumito b = false) :
    cellInBounds (m.get_front.add m.direction.value) = true ∧
      b.get (m.get_front.add m.direction.value) = none := by
  rw [Board.is_valid_move_inline b m p hin] at hval
  unfold Board.is_valid_inline_move at hval
  cases hb : cellInBounds (m.get_front.add m.direction.value)
  · rw [validInlineStep_oob b p _ _ 1 [2, 3] _ false hb] at hval
    exact absurd hval (by simp)
  · refine ⟨rfl, ?_⟩
    rcases hg : b.get (m.get_front.add m.direction.value) with _ | c
    · rfl
    · by_cases hc : c = p
      · subst hc
        rw [validInlineStep_own b c _ _ 1 [2, 3] _ false hb hg] at hval
        exact absurd hval (by simp)
      · have hcn : c = Color.next p := Color.eq_next_of_ne hc
        subst hcn
        have : m.is_sumito b = true := by
          unfold Move.is_sumito
          rw [hin]
          rw [show m.selection.get_player b = b.get m.selection.start from rfl, hstart, hg]
          simp
        rw [this] at hns
        exact absurd hns (by simp)

theorem valid_non_sumito_facts (b : Board) (m : Move) (p : Color)
    (hcol : m.selection.Collinear)
    (hmem : ∀ c ∈ m.selection.to_array, cellInBounds c = true ∧ b.get c = some p)
    (hval : b.is_valid_move m p = true)
    (hns : m.is_sumito b = false) :
    (∀ c ∈ m.get_destinations, cellInBounds c = true) ∧
      (∀ c ∈ m.get_destinations, c ∉ m.selection.to_array → b.get c = none) := by
  by_cases hinl : m.is_inline = true
  · have hstart : b.get m.selection.start = some p :=
      (hmem _ (Selection.start_mem_to_array m.selection)).2
    obtain ⟨hb, hg⟩ := inline_first_step_facts b m p hinl hstart hval hns
    obtain ⟨-, -, -, hsplit, -⟩ := inline_geometry m hinl hcol
    constructor
    · intro c hc
      rcases hsplit c hc with hca | hceq
      · exact (hmem c hca).1
      · rw [hceq]
        exact hb
    · intro c hc hnc
      rcases hsplit c hc with hca | hceq
      · exact absurd hca hnc
      · rw [hceq]
        exact hg
  · have hinl' : m.is_inline = false := by
      cases h : m.is_inline
      · rfl
      · exact absurd h hinl
    have hchar := valid_move_all_dests_char b m p (Or.inr hinl')
    rw [hval] at hchar
    have hall := (List.all_eq_true.mp hchar.symm)
    constructor
    · intro c hc
      obtain ⟨a, ha, rfl⟩ := List.mem_map.mp hc
      have := hall a ha
      rw [Bool.and_eq_true] at this
      exact this.1
    · intro c hc _
      obtain ⟨a, ha, rfl⟩ := List.mem_map.mp hc
      have := hall a ha
      rw [Bool.and_eq_true, Bool.not_eq_true'] at this
      rcases hg : b.get (a.add m.direction.value) with _ | c'
      · rfl
      · rw [hg] at this
        exact absurd this.2 (by simp)

/-! ## Claim C10: non-pushing moves preserve marble counts -/

theorem Hex.add_injective (d : Int × Int) :
    Function.Injective fun c : Hex => c.add d := by
  intro a b h
  unfold Hex.add at h
  rw [Hex.mk.injEq] at h
  cases a with
  | mk ax ay =>
    cases b with
    | mk bx by' =>
      simp only at h
      rw [Hex.mk.injEq]
      omega

theorem countColor_apply_base_eq_p (b : Board) (m : Move) (p : Color)
    (hcol : m.selection.Collinear)
    (hmem : ∀ c ∈ m.selection.to_array, cellInBounds c = true ∧ b.get c = some p)
    (hval : b.is_valid_move m p = true)
    (hns : m.is_sumito b = false) :
    countColor (b.apply_base_move m) p = countColor b p := by
  obtain ⟨hD, hF2⟩ := valid_non_sumito_facts b m p hcol hmem hval hns
  have hpl : m.selection.get_player b = some p :=
    (hmem _ (Selection.start_mem_to_array m.selection)).2
  have hAnd : m.selection.to_array.Nodup := Selection.to_array_nodup m.selection
  have hDnd : m.get_destinations.Nodup := by
    unfold Move.get_destinations
    exact hAnd.map (Hex.add_injective m.direction.value)
  have hlen : m.get_destinations.length = m.selection.to_array.length := by
    unfold Move.get_destinations
    rw [List.length_map]
  have hnew : allCells.countP (fun cell => (b.apply_base_move m).get cell == some p) =
      allCells.countP (fun c => decide (c ∈ m.get_destinations) ||
        (decide (c ∉ m.selection.to_array ∧ c ∉ m.get_destinations) &&
          (b.get c == some p))) := by
    refine List.countP_congr fun c hc => ?_
    have hcb : cellInBounds c = true := mem_allCells.mp hc
    rw [Board.get_apply_base_move]
    by_cases hd : c ∈ m.get_destinations
    · rw [if_pos ⟨hd, hcb⟩, hpl]
      simp [hd]
    · rw [if_neg fun h => hd h.1]
      by_cases ha : c ∈ m.selection.to_array
      · rw [if_pos ha]
        simp [hd, ha]
      · rw [if_neg ha]
        simp [hd, ha]
  have hold : allCells.countP (fun cell => b.get cell == some p) =
      allCells.countP (fun c => decide (c ∈ m.selection.to_array) ||
        (decide (c ∉ m.selection.to_array ∧ c ∉ m.get_destinations) &&
          (b.get c == some p))) := by
    refine List.countP_congr fun c hc => ?_
    by_cases ha : c ∈ m.selection.to_array
    · rw [(hmem c ha).2]
      simp [ha]
    · by_cases hd : c ∈ m.get_destinations
      · rw [hF2 c hd ha]
        simp [ha, hd]
      · simp [ha, hd]
  have hsplit1 : allCells.countP (fun c => decide (c ∈ m.get_destinations) ||
      (decide (c ∉ m.selection.to_array ∧ c ∉ m.get_destinations) &&
        (b.get c == some p))) =
      allCells.countP (fun c => decide (c ∈ m.get_destinations)) +
        allCells.countP (fun c =>
          decide (c ∉ m.selection.to_array ∧ c ∉ m.get_destinations) &&
            (b.get c == some p)) := by
    refine countP_or_disjoint _ _ _ fun c _ h => ?_
    obtain ⟨h1, h2⟩ := h
    rw [decide_eq_true_eq] at h1
    rw [Bool.and_eq_true, decide_eq_true_eq] at h2
    exact h2.1.2 h1
  have hsplit2 : allCells.countP (fun c => decide (c ∈ m.selection.to_array) ||
      (decide (c ∉ m.selection.to_array ∧ c ∉ m.get_destinations) &&
        (b.get c == some p))) =
      allCells.countP (fun c => decide (c ∈ m.selection.to_array)) +
        allCells.countP (fun c =>
          decide (c ∉ m.selection.to_array ∧ c ∉ m.get_destinations) &&
            (b.get c == some p)) := by
    refine countP_or_disjoint _ _ _ fun c _ h => ?_
    obtain ⟨h1, h2⟩ := h
    rw [decide_eq_true_eq] at h1
    rw [Bool.and_eq_true, decide_eq_true_eq] at h2
    exact h2.1.1 h1
  have hcntD : allCells.countP (fun c => decide (c ∈ m.get_destinations)) =
      m.get_destinations.length :=
    countP_mem_nodup _ _ hDnd (fun c hc => mem_allCells.mpr (hD c hc)) allCells_nodup
  have hcntA : allCells.countP (fun c => decide (c ∈ m.selection.to_array)) =
      m.selection.to_array.length :=
    countP_mem_nodup _ _ hAnd (fun c hc => mem_allCells.mpr (hmem c hc).1) allCells_nodup
  unfold countColor
  omega

theorem countColor_apply_base_eq_opp (b : Board) (m : Move) (p q : Color)
    (hq : q ≠ p)
    (hcol : m.selection.Collinear)
    (hmem : ∀ c ∈ m.selection.to_array, cellInBounds c = true ∧ b.get c = some p)
    (hval : b.is_valid_move m p = true)
    (hns : m.is_sumito b = false) :
    countColor (b.apply_base_move m) q = countColor b q := by
  obtain ⟨hD, hF2⟩ := valid_non_sumito_facts b m p hcol hmem hval hns
  have hpl : m.selection.get_player b = some p :=
    (hmem _ (Selection.start_mem_to_array m.selection)).2
  have hq' : p ≠ q := fun h => hq h.symm
  unfold countColor
  refine List.countP_congr fun c hc => ?_
  have hcb : cellInBounds c = true := mem_allCells.mp hc
  rw [Board.get_apply_base_move]
  by_cases hd : c ∈ m.get_destinations
  · rw [if_pos ⟨hd, hcb⟩, hpl]
    by_cases ha : c ∈ m.selection.to_array
    · rw [(hmem c ha).2]
    · rw [hF2 c hd ha]
      simp [hq']
  · rw [if_neg fun h => hd h.1]
    by_cases ha : c ∈ m.selection.to_array
    · rw [if_pos ha, (hmem c ha).2]
      simp [hq']
    · rw [if_neg ha]

/-- C10: a non-sumito move that is valid for the color occupying its
selection (the selection being a well-formed, uniformly colored line)
changes neither the number of black-occupied cells nor the number of
white-occupied cells. -/
theorem claim_C10 (b : Board) (m : Move) (p : Color)
    (hcol : m.selection.Collinear)
    (hmem : ∀ c ∈ m.selection.to_array, cellInBounds c = true ∧ b.get c = some p)
    (hval : b.is_valid_move m p = true)
    (hns : m.is_sumito b = false) :
    countColor (b.apply_move m) Color.black = countColor b Color.black ∧
      countColor (b.apply_move m) Color.white = countColor b Color.white := by
  rw [Board.apply_move_of_not_sumito b m hns]
  cases p
  · exact ⟨countColor_apply_base_eq_p b m Color.black hcol hmem hval hns,
      countColor_apply_base_eq_opp b m Color.black Color.white (by simp) hcol hmem hval hns⟩
  · exact ⟨countColor_apply_base_eq_opp b m Color.white Color.black (by simp) hcol hmem hval hns,
      countColor_apply_base_eq_p b m Color.white hcol hmem hval hns⟩

/-- C10 witness: black's sidestep on the push board keeps two black and
one white marble on the board. -/
theorem claim_C10_witness :
    countColor (boardPush.apply_move moveSideSE) Color.black =
        countColor boardPush Color.black ∧
      countColor (boardPush.apply_move moveSideSE) Color.white =
        countColor boardPush Color.white :=
  claim_C10 boardPush moveSideSE Color.black (by decide)
    (fun c hc => by
      have hl : moveSideSE.selection.to_array = [⟨6, 0⟩, ⟨7, 0⟩] := by decide
      rw [hl] at hc
      simp only [List.mem_cons, List.not_mem_nil, or_false] at hc
      rcases hc with rfl | rfl <;> exact ⟨by decide, by decide⟩)
    (by decide) (by decide)

/-! ## Claim C5: round trip of a base move and its inverse -/

theorem inverse_move_is_inline (m : Move) :
    (Move.mk
      (Selection.mk (m.selection.start.add m.direction.value)
        (m.selection.stop.map fun c => c.add m.direction.value))
      m.direction.opposite).is_inline = m.is_inline := by
  obtain ⟨⟨st, stp⟩, dir⟩ := m
  rcases stp with _ | e
  · rfl
  · have h1 : (Move.mk
        (Selection.mk (st.add dir.value)
          ((some e).map fun c => c.add dir.value))
        dir.opposite).is_inline =
          ((dir.opposite.value ==
            (Selection.mk (st.add dir.value) (some (e.add dir.value))).unit) ||
          (dir.opposite.value ==
            (-(Selection.mk (st.add dir.value) (some (e.add dir.value))).unit.1,
             -(Selection.mk (st.add dir.value) (some (e.add dir.value))).unit.2))) := rfl
    have h2 : (Move.mk (Selection.mk st (some e)) dir).is_inline =
        ((dir.value == (Selection.mk st (some e)).unit) ||
          (dir.value == (-(Selection.mk st (some e)).unit.1,
            -(Selection.mk st (some e)).unit.2))) := rfl
    have hu : (Selection.mk (st.add dir.value) (some (e.add dir.value))).unit =
        (Selection.mk st (some e)).unit :=
      Selection.unit_shift (Selection.mk st (some e)) dir.value
    show (Move.mk
        (Selection.mk (st.add dir.value)
          ((some e).map fun c => c.add dir.value))
        dir.opposite).is_inline =
      (Move.mk (Selection.mk st (some e)) dir).is_inline
    rw [h1, h2, hu, HexDirection.opposite_value]
    rw [Bool.eq_iff_iff]
    simp only [Bool.or_eq_true, beq_iff_eq]
    constructor
    · rintro (h | h)
      · right
        rw [Prod.ext_iff] at h ⊢
        simp only at h ⊢
        omega
      · left
        rw [Prod.ext_iff] at h ⊢
        simp only at h ⊢
        omega
    · rintro (h | h)
      · right
        rw [Prod.ext_iff] at h ⊢
        simp only at h ⊢
        omega
      · left
        rw [Prod.ext_iff] at h ⊢
        simp only at h ⊢
        omega

/-- C5: applying a legal non-sumito move and then the exact inverse move
(the destination cells selected, with the opposite direction) restores the
original occupancy of every cell of the board. -/
theorem claim_C5 (b : Board) (m : Move) (p : Color)
    (hcol : m.selection.Collinear)
    (hmem : ∀ c ∈ m.selection.to_array, cellInBounds c = true ∧ b.get c = some p)
    (hval : b.is_valid_move m p = true)
    (hns : m.is_sumito b = false) :
    ∀ c : Hex,
      ((b.apply_move m).apply_move
        (Move.mk
          (Selection.mk (m.selection.start.add m.direction.value)
            (m.selection.stop.map fun x => x.add m.direction.value))
          m.direction.opposite)).get c = b.get c := by
  obtain ⟨hD, hF2⟩ := valid_non_sumito_facts b m p hcol hmem hval hns
  have hA' : (Selection.mk (m.selection.start.add m.direction.value)
      (m.selection.stop.map fun x => x.add m.direction.value)).to_array =
        m.get_destinations :=
    Selection.to_array_shift m.selection m.direction.value
  have hDback : (Move.mk
      (Selection.mk (m.selection.start.add m.direction.value)
        (m.selection.stop.map fun x => x.add m.direction.value))
      m.direction.opposite).get_destinations = m.selection.to_array := by
    unfold Move.get_destinations
    rw [show (Move.mk
      (Selection.mk (m.selection.start.add m.direction.value)
        (m.selection.stop.map fun x => x.add m.direction.value))
      m.direction.opposite).selection =
        Selection.mk (m.selection.start.add m.direction.value)
          (m.selection.stop.map fun x => x.add m.direction.value) from rfl, hA']
    rw [show m.get_destinations =
      m.selection.to_array.map fun c => c.add m.direction.value from rfl, List.map_map]
    refine Eq.trans (List.map_congr_left fun c _ => ?_) (List.map_id _)
    simp only [Function.comp_apply, id_eq]
    rw [show (Move.mk
      (Selection.mk (m.selection.start.add m.direction.value)
        (m.selection.stop.map fun x => x.add m.direction.value))
      m.direction.opposite).direction.value = m.direction.opposite.value from rfl,
      HexDirection.opposite_value]
    unfold Hex.add
    cases c with
    | mk x y =>
      simp only
      rw [Hex.mk.injEq]
      constructor <;> ring
  rw [Board.apply_move_of_not_sumito b m hns]
  have hstartD : m.selection.start.add m.direction.value ∈ m.get_destinations := by
    unfold Move.get_destinations
    exact List.mem_map.mpr ⟨m.selection.start, Selection.start_mem_to_array _, rfl⟩
  have hv' : (Selection.mk (m.selection.start.add m.direction.value)
      (m.selection.stop.map fun x => x.add m.direction.value)).get_player
        (b.apply_base_move m) = some p := by
    rw [show (Selection.mk (m.selection.start.add m.direction.value)
      (m.selection.stop.map fun x => x.add m.direction.value)).get_player
        (b.apply_base_move m) =
          (b.apply_base_move m).get (m.selection.start.add m.direction.value) from rfl]
    rw [Board.get_apply_base_move,
      if_pos ⟨hstartD, hD _ hstartD⟩]
    exact (hmem _ (Selection.start_mem_to_array m.selection)).2
  have hsum' : (Move.mk
      (Selection.mk (m.selection.start.add m.direction.value)
        (m.selection.stop.map fun x => x.add m.direction.value))
      m.direction.opposite).is_sumito (b.apply_base_move m) = false := by
    by_cases hinl : m.is_inline = true
    · obtain ⟨-, -, -, -, back, hbackA, hbackD, hbackeq⟩ := inline_geometry m hinl hcol
      have hb1back : (b.apply_base_move m).get
          ((Move.mk
            (Selection.mk (m.selection.start.add m.direction.value)
              (m.selection.stop.map fun x => x.add m.direction.value))
            m.direction.opposite).get_front.add m.direction.opposite.value) = none := by
        rw [← hbackeq, Board.get_apply_base_move, if_neg fun h => hbackD h.1,
          if_pos hbackA]
      unfold Move.is_sumito
      rw [show (Move.mk
        (Selection.mk (m.selection.start.add m.direction.value)
          (m.selection.stop.map fun x => x.add m.direction.value))
        m.direction.opposite).direction = m.direction.opposite from rfl]
      rw [hb1back]
      rcases (Selection.mk (m.selection.start.add m.direction.value)
        (m.selection.stop.map fun x => x.add m.direction.value)).get_player
          (b.apply_base_move m) with _ | p'
      · simp
      · simp
    · have hinlf : m.is_inline = false := by
        cases h : m.is_inline
        · rfl
        · exact absurd h hinl
      unfold Move.is_sumito
      rw [show (Move.mk
        (Selection.mk (m.selection.start.add m.direction.value)
          (m.selection.stop.map fun x => x.add m.direction.value))
        m.direction.opposite).is_inline =
          (Move.mk
            (Selection.mk (m.selection.start.add m.direction.value)
              (m.selection.stop.map fun x => x.add m.direction.value))
            m.direction.opposite).is_inline from rfl,
        inverse_move_is_inline, hinlf]
      simp
  rw [Board.apply_move_of_not_sumito _ _ hsum']
  intro c
  rw [Board.get_apply_base_move]
  rw [show (Move.mk
    (Selection.mk (m.selection.start.add m.direction.value)
      (m.selection.stop.map fun x => x.add m.direction.value))
    m.direction.opposite).selection =
      Selection.mk (m.selection.start.add m.direction.value)
        (m.selection.stop.map fun x => x.add m.direction.value) from rfl]
  rw [hDback, hA', hv']
  by_cases ha : c ∈ m.selection.to_array
  · rw [if_pos ⟨ha, (hmem c ha).1⟩, (hmem c ha).2]
  · rw [if_neg fun h => ha h.1]
    by_cases hd : c ∈ m.get_destinations
    · rw [if_pos hd, hF2 c hd ha]
    · rw [if_neg hd, Board.get_apply_base_move, if_neg fun h => hd h.1, if_neg ha]

/-- C5 witness: black's sidestep on the push board, undone by the inverse
north-west sidestep of the two destination cells, restores (6,0). -/
theorem claim_C5_witness :
    ((boardPush.apply_move moveSideSE).apply_move
      (Move.mk
        (Selection.mk (moveSideSE.selection.start.add moveSideSE.direction.value)
          (moveSideSE.selection.stop.map fun x => x.add moveSideSE.direction.value))
        moveSideSE.direction.opposite)).get ⟨6, 0⟩ = boardPush.get ⟨6, 0⟩ :=
  claim_C5 boardPush moveSideSE Color.black (by decide)
    (fun c hc => by
      have hl : moveSideSE.selection.to_array = [⟨6, 0⟩, ⟨7, 0⟩] := by decide
      rw [hl] at hc
      simp only [List.mem_cons, List.not_mem_nil, or_false] at hc
      rcases hc with rfl | rfl <;> exact ⟨by decide, by decide⟩)
    (by decide) (by decide) ⟨6, 0⟩

/-! ## Helpers for the sumito push off the edge -/

theorem Board.get_some_inbounds {b : Board} {c : Hex} {x : Color}
    (h : b.get c = some x) : cellInBounds c = true := by
  unfold Board.get at h
  by_cases hb : cellInBounds c
  · exact hb
  · rw [if_neg hb] at h
    exact absurd h (by simp)

theorem Board.layout_apply_base (b : Board) (m : Move) :
    (b.apply_base_move m).layout = b.layout := by
  unfold Board.apply_base_move
  rw [Board.layout_foldl, Board.layout_foldl]

theorem cacheWF_apply_base (b : Board) (m : Move) (h : cacheWF b) :
    cacheWF (b.apply_base_move m) := by
  unfold Board.apply_base_move
  exact cacheWF_foldl _ _ _ (cacheWF_foldl _ _ _ h)

theorem Selection.to_array_self (a : Hex) :
    (Selection.mk a (some a)).to_array = [a] := by
  rw [Selection.to_array_mk_some]
  rw [show (a.x - a.x).natAbs ⊔ (a.y - a.y).natAbs + 1 = 1 from by simp,
    show List.range 1 = [0] from rfl]
  simp

theorem get_score_eq (b : Board) (p : Color) (hWF : cacheWF b) :
    b.get_score p =
      (layoutCount b.layout (Color.next p) : Int) -
        (countColor b (Color.next p) : Int) := by
  simp only [Board.get_score]
  rw [Board.enumerate_snd b hWF]
  simp only [computeItems]
  rw [countP_map_general]
  rfl

/-! ## Claim C7: pushing a lone marble off the edge -/

/-- C7: a legal sumito move whose pushed run is a lone opponent marble
sitting at the board edge removes that marble: its source cell ends up
holding the mover's color, no enumeration entry carries the marble (its
old cell now enumerates as the mover's, its off-board destination is not
a cell), and the mover's score goes from 0 to 1. -/
theorem claim_C7 (b : Board) (m : Move) (p : Color)
    (hcol : m.selection.Collinear)
    (hmem : ∀ c ∈ m.selection.to_array, cellInBounds c = true ∧ b.get c = some p)
    (hval : b.is_valid_move m p = true)
    (hsum : m.is_sumito b = true)
    (hlone : cellInBounds ((m.get_front.add m.direction.value).add m.direction.value)
      = false)
    (hWF : cacheWF b)
    (hscore : b.get_score p = 0) :
    (b.apply_move m).get (m.get_front.add m.direction.value) = some p ∧
      (m.get_front.add m.direction.value, some (Color.next p)) ∉
        ((b.apply_move m).enumerate).2 ∧
      (∀ pr ∈ ((b.apply_move m).enumerate).2,
        pr.1 ≠ (m.get_front.add m.direction.value).add m.direction.value) ∧
      (b.apply_move m).get_score p = 1 := by
  have hsum2 : m.is_inline = true ∧
      (match m.selection.get_player b,
        b.get ((m.get_front).add m.direction.value) with
      | some p', some c => c == Color.next p'
      | _, _ => false) = true := by
    unfold Move.is_sumito at hsum
    rw [Bool.and_eq_true] at hsum
    exact hsum
  have hin : m.is_inline = true := hsum2.1
  have hstart : b.get m.selection.start = some p :=
    (hmem _ (Selection.start_mem_to_array m.selection)).2
  have hfd_opp : b.get (m.get_front.add m.direction.value) = some (Color.next p) := by
    have h2 := hsum2.2
    rw [show m.selection.get_player b = b.get m.selection.start from rfl, hstart] at h2
    rcases hg : b.get (m.get_front.add m.direction.value) with _ | c
    · rw [hg] at h2
      exact absurd h2 (by simp)
    · rw [hg] at h2
      have h2' : (c == Color.next p) = true := h2
      rw [beq_iff_eq] at h2'
      rw [h2']
  have hfd_inB : cellInBounds (m.get_front.add m.direction.value) = true :=
    Board.get_some_inbounds hfd_opp
  obtain ⟨hfrontA, hfdnA, hfdD, hsplit, -⟩ := inline_geometry m hin hcol
  have hstart_ne : m.selection.start ≠ m.get_front.add m.direction.value := by
    intro h
    exact hfdnA (h ▸ Selection.start_mem_to_array m.selection)
  have hselect : b.select_marbles_in_line (m.get_front.add m.direction.value)
      m.direction =
      some (Selection.mk (m.get_front.add m.direction.value)
        (some (m.get_front.add m.direction.value))) := by
    have hfuel : dirFuel m.direction (m.get_front.add m.direction.value) ≤ 18 := by
      have := (dirMono_bounds (d := m.direction) hfd_inB).2
      unfold dirFuel
      omega
    have hspec := selectLoop_spec b (Color.next p) m.direction 18
      (m.get_front.add m.direction.value) (m.get_front.add m.direction.value) hfuel
    rw [if_pos (by rw [Bool.and_eq_true, beq_iff_eq]; exact ⟨hfd_inB, hfd_opp⟩)] at hspec
    obtain ⟨k, hk1, hks, hnk, hres⟩ := hspec
    have hk : k = 1 := by
      by_contra hne
      have h1 := (hks 1 (by omega)).1
      rw [show Hex.step (m.get_front.add m.direction.value) m.direction.value 1 =
        (m.get_front.add m.direction.value).add m.direction.value from by
          rw [← Hex.step_succ, Hex.step_zero]] at h1
      rw [hlone] at h1
      exact absurd h1 (by simp)
    rw [hk] at hres
    unfold Board.select_marbles_in_line
    rw [hfd_opp]
    show (match selectLoop b (Color.next p) m.direction.value 18
        (m.get_front.add m.direction.value) (m.get_front.add m.direction.value) with
      | some dest_cell => some (Selection.mk (m.get_front.add m.direction.value)
          (some (Hex.mk dest_cell.x dest_cell.y)))
      | none => (none : Option Selection)) =
        some (Selection.mk (m.get_front.add m.direction.value)
          (some (m.get_front.add m.direction.value)))
    rw [hres, show Hex.step (m.get_front.add m.direction.value) m.direction.value (1 - 1)
        = m.get_front.add m.direction.value from by
      rw [show (1 : Nat) - 1 = 0 from rfl, Hex.step_zero]]
  have happ : b.apply_move m =
      (b.setItem (m.get_front.add m.direction.value) none).apply_base_move m := by
    unfold Board.apply_move
    rw [hsum]
    simp only [if_true]
    unfold Board.apply_sumito_move
    rw [hselect]
    show ((Move.mk (Selection.mk (m.get_front.add m.direction.value)
          (some (m.get_front.add m.direction.value))) m.direction).get_destinations.foldl
        (fun bd cell => if bd.cell_in_bounds cell then
          bd.setItem cell ((Move.mk (Selection.mk (m.get_front.add m.direction.value)
            (some (m.get_front.add m.direction.value)))
              m.direction).selection.get_player b) else bd)
        ((Selection.mk (m.get_front.add m.direction.value)
          (some (m.get_front.add m.direction.value))).to_array.foldl
          (fun bd cell => if bd.cell_in_bounds cell then bd.setItem cell none else bd)
          b)).apply_base_move m =
      (b.setItem (m.get_front.add m.direction.value) none).apply_base_move m
    have hta : (Selection.mk (m.get_front.add m.direction.value)
        (some (m.get_front.add m.direction.value))).to_array =
          [m.get_front.add m.direction.value] := Selection.to_array_self _
    have hdests : (Move.mk (Selection.mk (m.get_front.add m.direction.value)
        (some (m.get_front.add m.direction.value))) m.direction).get_destinations =
          [(m.get_front.add m.direction.value).add m.direction.value] := by
      unfold Move.get_destinations
      rw [show (Move.mk (Selection.mk (m.get_front.add m.direction.value)
        (some (m.get_front.add m.direction.value))) m.direction).selection =
          Selection.mk (m.get_front.add m.direction.value)
            (some (m.get_front.add m.direction.value)) from rfl, hta]
      rfl
    have hinner : List.foldl
        (fun bd cell => if bd.cell_in_bounds cell = true then bd.setItem cell none else bd)
        b [m.get_front.add m.direction.value] =
          b.setItem (m.get_front.add m.direction.value) none := by
      rw [List.foldl_cons, List.foldl_nil,
        show b.cell_in_bounds (m.get_front.add m.direction.value) = true from hfd_inB,
        if_pos rfl]
    rw [hta, hdests, hinner, List.foldl_cons, List.foldl_nil,
      show ((b.setItem (m.get_front.add m.direction.value) none).cell_in_bounds
        ((m.get_front.add m.direction.value).add m.direction.value)) = false from hlone]
    simp
  have hWF' : cacheWF (b.apply_move m) := by
    rw [happ]
    exact cacheWF_apply_base _ _ (cacheWF_setItem _ _ _ hWF)
  have hplB1 : m.selection.get_player
      (b.setItem (m.get_front.add m.direction.value) none) = some p := by
    rw [show m.selection.get_player
      (b.setItem (m.get_front.add m.direction.value) none) =
        (b.setItem (m.get_front.add m.direction.value) none).get m.selection.start
      from rfl, Board.get_setItem, if_neg, hstart]
    rintro ⟨h1, -⟩
    exact hstart_ne h1
  have hc1 : (b.apply_move m).get (m.get_front.add m.direction.value) = some p := by
    rw [happ, Board.get_apply_base_move, if_pos ⟨hfdD, hfd_inB⟩, hplB1]
  refine ⟨hc1, ?_, ?_, ?_⟩
  · intro hmem'
    rw [Board.enumerate_snd _ hWF'] at hmem'
    unfold computeItems at hmem'
    obtain ⟨c, hc, heq⟩ := List.mem_map.mp hmem'
    rw [Prod.mk.injEq] at heq
    obtain ⟨rfl, heq2⟩ := heq
    rw [hc1] at heq2
    have : p = Color.next p := by
      injection heq2
    exact Color.next_ne p this.symm
  · intro pr hpr
    rw [Board.enumerate_snd _ hWF'] at hpr
    unfold computeItems at hpr
    obtain ⟨c, hc, heq⟩ := List.mem_map.mp hpr
    intro hbad
    have hcin : cellInBounds pr.1 = true := by
      rw [← heq]
      exact mem_allCells.mp hc
    rw [hbad] at hcin
    rw [hlone] at hcin
    exact absurd hcin (by simp)
  · have hlay : (b.apply_move m).layout = b.layout := by
      rw [happ, Board.layout_apply_base, Board.layout_setItem]
    rw [get_score_eq _ p hWF', hlay]
    have hflip : countColor (b.apply_move m) (Color.next p) + 1 =
        countColor b (Color.next p) := by
      unfold countColor
      refine countP_flip_one allCells _ _ (m.get_front.add m.direction.value)
        allCells_nodup (mem_allCells.mpr hfd_inB) ?_ ?_ ?_
      · rw [hfd_opp]
        simp
      · rw [hc1]
        have : p ≠ Color.next p := fun h => Color.next_ne p h.symm
        simp [this]
      · intro c hc hne
        rw [happ, Board.get_apply_base_move]
        by_cases hd : c ∈ m.get_destinations
        · rcases hsplit c hd with hA | hF
          · rw [if_pos ⟨hd, (hmem c hA).1⟩, hplB1, (hmem c hA).2]
          · exact absurd hF hne
        · rw [if_neg fun h => hd h.1]
          by_cases hA : c ∈ m.selection.to_array
          · rw [if_pos hA, (hmem c hA).2]
            have : p ≠ Color.next p := fun h => Color.next_ne p h.symm
            simp [this]
          · rw [if_neg hA, Board.get_setItem, if_neg]
            rintro ⟨h1, -⟩
            exact hne h1
    have hbase := get_score_eq b p hWF
    rw [hbase] at hscore
    omega

/-- C7 witness: black pushes the lone white marble at (8,0) over the east
edge: (8,0) becomes black, the white marble is gone from the enumeration,
and black's score becomes 1. -/
theorem claim_C7_witness :
    (boardPush.apply_move movePushE).get ⟨8, 0⟩ = some Color.black ∧
      ((⟨8, 0⟩ : Hex), some Color.white) ∉
        ((boardPush.apply_move movePushE).enumerate).2 ∧
      (boardPush.apply_move movePushE).get_score Color.black = 1 := by
  obtain ⟨h1, h2, h3, h4⟩ := claim_C7 boardPush movePushE Color.black (by decide)
    (fun c hc => by
      have hl : movePushE.selection.to_array = [⟨6, 0⟩, ⟨7, 0⟩] := by decide
      rw [hl] at hc
      simp only [List.mem_cons, List.not_mem_nil, or_false] at hc
      rcases hc with rfl | rfl <;> exact ⟨by decide, by decide⟩)
    (by decide) (by decide) (by decide)
    (cacheWF_create_from_data layoutPush) (by decide)
  exact ⟨h1, h2, h4⟩
